import Mathlib

/-!
Verification of the pyunicorn core numerics engine
(`src/pyunicorn/core/_ext/numerics.pyx`).

Shallow embedding conventions:
* dense adjacency matrices (`ADJ_t`) become total functions `ℕ → ℕ → ℕ`
  (entries are small non-negative integers; well-formed inputs are 0/1);
* real-valued data (`FIELD_t`, `DWEIGHT_t`, `DFIELD_t`) becomes `ℚ`;
* node index arrays become `List ℕ`, edge arrays become `List (ℕ × ℕ)`;
* the accumulation loops of the Cython kernels become `Finset` sums
  (addition is commutative, so the iteration order is irrelevant);
* the random draws of the rewiring kernels become an explicit list of
  drawn edge indices: rejected draws leave the state unchanged, so the
  state after any number of successful rewirings is the fold of the
  step function over some finite draw list;
* the Cython float division `T1 / T2` with a possibly-zero divisor is
  fallible (ZeroDivisionError); it is embedded as `Option ℚ` with
  `none` for the division-by-zero case.
-/

namespace PyunicornNumerics

open Finset

/-! # Definitions -/

/-! ## Shared matrix primitives -/

/-- Single-entry matrix write `A[i, j] = v`. -/
def setEntry (A : ℕ → ℕ → ℕ) (i j v : ℕ) : ℕ → ℕ → ℕ :=
  fun x y => if x = i ∧ y = j then v else A x y

/-- Symmetric matrix write `A[i, j] = A[j, i] = v`. -/
def setSym (A : ℕ → ℕ → ℕ) (i j v : ℕ) : ℕ → ℕ → ℕ :=
  fun x y => if (x = i ∧ y = j) ∨ (x = j ∧ y = i) then v else A x y

/-- Row sum of an `N × N` matrix: the degree of node `i` in an adjacency
matrix (`degree[i] = sum_j A[i,j]` in the spec's data model). -/
def rowDeg (N : ℕ) (A : ℕ → ℕ → ℕ) (i : ℕ) : ℕ :=
  ∑ j in range N, A i j

/-- Column sum of a matrix restricted to the first `m` rows. -/
def colSumUpTo (m : ℕ) (A : ℕ → ℕ → ℕ) (j : ℕ) : ℕ :=
  ∑ i in range m, A i j

/-- Sum of all entries of the `N × N` matrix (twice the undirected edge
count for a symmetric zero-diagonal adjacency matrix). -/
def totalAdj (N : ℕ) (A : ℕ → ℕ → ℕ) : ℕ :=
  ∑ i in range N, rowDeg N A i

/-- The adjacency-matrix part of the data-model invariant: symmetric,
0/1 entries, zero diagonal (quantified over the `N × N` index range). -/
def symmetric01 (N : ℕ) (A : ℕ → ℕ → ℕ) : Prop :=
  (∀ x < N, ∀ y < N, A x y = A y x) ∧
  (∀ x < N, ∀ y < N, A x y ≤ 1) ∧
  (∀ x < N, A x x = 0)

/-! ## `_randomly_rewire_geomodel` and its wrappers (geo_network) -/

/-- Geometric condition C1 of the geomodel (`cond_len_c1`). -/
def cond_len_c1 (D : ℕ → ℕ → ℚ) (eps : ℚ) (s t k l : ℕ) : Bool :=
  (decide (|D s t - D k t| < eps) && decide (|D k l - D s l| < eps)) ||
  (decide (|D s t - D s l| < eps) && decide (|D k l - D k t| < eps))

/-- Geometric condition C2 of the geomodel (`cond_len_c2`). -/
def cond_len_c2 (D : ℕ → ℕ → ℚ) (eps : ℚ) (s t k l : ℕ) : Bool :=
  decide (|D s t - D s l| < eps) && decide (|D t s - D t k| < eps) &&
  decide (|D k l - D k t| < eps) && decide (|D l k - D l s| < eps)

/-- Invariance of degree-degree correlations (`cond_deg_corr`). -/
def cond_deg_corr (degree : ℕ → ℕ) (s t k l : ℕ) : Bool :=
  decide (degree s = degree k) && decide (degree t = degree l)

/-- The mutable state of `_randomly_rewire_geomodel`: the adjacency
matrix `A` and its parallel edge list. -/
structure GeoState where
  A : ℕ → ℕ → ℕ
  edges : List (ℕ × ℕ)

/-- The four symmetric writes of an accepted double-edge swap:
`A[s,t] = A[t,s] = 0; A[k,l] = A[l,k] = 0; A[s,l] = A[l,s] = 1;
A[t,k] = A[k,t] = 1` (in source order, later writes winning). -/
def applySwap (A : ℕ → ℕ → ℕ) (s t k l : ℕ) : ℕ → ℕ → ℕ :=
  setSym (setSym (setSym (setSym A s t 0) k l 0) s l 1) t k 1

/-- The acceptance test of `_randomly_rewire_geomodel`: old links
disjoint, new links not yet present, and both link conditions hold
(`cond_deg is NULL` becomes `none`). -/
def geoAccept (condLen : ℕ → ℕ → ℕ → ℕ → Bool)
    (condDeg : Option (ℕ → ℕ → ℕ → ℕ → Bool))
    (A : ℕ → ℕ → ℕ) (s t k l : ℕ) : Prop :=
  s ≠ k ∧ s ≠ l ∧ t ≠ k ∧ t ≠ l ∧ A s l = 0 ∧ A t k = 0 ∧
  (match condDeg with | none => true | some c => c s t k l) = true ∧
  condLen s t k l = true

instance (condLen : ℕ → ℕ → ℕ → ℕ → Bool)
    (condDeg : Option (ℕ → ℕ → ℕ → ℕ → Bool))
    (A : ℕ → ℕ → ℕ) (s t k l : ℕ) :
    Decidable (geoAccept condLen condDeg A s t k l) := by
  unfold geoAccept; infer_instance

/-- One loop iteration of `_randomly_rewire_geomodel` for the drawn
edge indices `draw = (edge1, edge2)`; a rejected draw leaves the state
unchanged (the `i` counter only counts accepted swaps, so the reachable
states are exactly the folds over finite draw lists). -/
def geoStep (condLen : ℕ → ℕ → ℕ → ℕ → Bool)
    (condDeg : Option (ℕ → ℕ → ℕ → ℕ → Bool))
    (st : GeoState) (draw : ℕ × ℕ) : GeoState :=
  if geoAccept condLen condDeg st.A
      (st.edges.getD draw.1 (0, 0)).1 (st.edges.getD draw.1 (0, 0)).2
      (st.edges.getD draw.2 (0, 0)).1 (st.edges.getD draw.2 (0, 0)).2 then
    { A := applySwap st.A
        (st.edges.getD draw.1 (0, 0)).1 (st.edges.getD draw.1 (0, 0)).2
        (st.edges.getD draw.2 (0, 0)).1 (st.edges.getD draw.2 (0, 0)).2
      edges :=
        (st.edges.set draw.1
          ((st.edges.getD draw.1 (0, 0)).1, (st.edges.getD draw.2 (0, 0)).2)).set
          draw.2
          ((st.edges.getD draw.2 (0, 0)).1, (st.edges.getD draw.1 (0, 0)).2) }
  else st

/-- `_randomly_rewire_geomodel`, run on an explicit list of random
edge-index draws. -/
def randomly_rewire_geomodel (condLen : ℕ → ℕ → ℕ → ℕ → Bool)
    (condDeg : Option (ℕ → ℕ → ℕ → ℕ → Bool))
    (st : GeoState) (draws : List (ℕ × ℕ)) : GeoState :=
  draws.foldl (geoStep condLen condDeg) st

/-- `_randomly_rewire_geomodel_I`: condition C1, no degree condition. -/
def randomly_rewire_geomodel_I (D : ℕ → ℕ → ℚ) (eps : ℚ) (st : GeoState)
    (draws : List (ℕ × ℕ)) : GeoState :=
  randomly_rewire_geomodel (cond_len_c1 D eps) none st draws

/-- `_randomly_rewire_geomodel_II`: condition C2, no degree condition. -/
def randomly_rewire_geomodel_II (D : ℕ → ℕ → ℚ) (eps : ℚ) (st : GeoState)
    (draws : List (ℕ × ℕ)) : GeoState :=
  randomly_rewire_geomodel (cond_len_c2 D eps) none st draws

/-- `_randomly_rewire_geomodel_III`: condition C2 plus invariance of
degree-degree correlations. -/
def randomly_rewire_geomodel_III (D : ℕ → ℕ → ℚ) (eps : ℚ)
    (degree : ℕ → ℕ) (st : GeoState) (draws : List (ℕ × ℕ)) : GeoState :=
  randomly_rewire_geomodel (cond_len_c2 D eps) (some (cond_deg_corr degree))
    st draws

/-- Every edge-list entry lies inside the `N × N` matrix. -/
def edgesInRange (N : ℕ) (edges : List (ℕ × ℕ)) : Prop :=
  ∀ i < edges.length,
    (edges.getD i (0, 0)).1 < N ∧ (edges.getD i (0, 0)).2 < N

/-- Edge-list consistency with the adjacency matrix:
`A[edges[e,0], edges[e,1]] == 1` for every edge index `e`. -/
def edgesConsistent (A : ℕ → ℕ → ℕ) (edges : List (ℕ × ℕ)) : Prop :=
  ∀ i < edges.length,
    A (edges.getD i (0, 0)).1 (edges.getD i (0, 0)).2 = 1

/-- Two (source, target) pairs name the same undirected link. -/
def samePair (e f : ℕ × ℕ) : Prop :=
  (e.1 = f.1 ∧ e.2 = f.2) ∨ (e.1 = f.2 ∧ e.2 = f.1)

/-- No two edge-list entries name the same undirected link. -/
def edgesDistinct (edges : List (ℕ × ℕ)) : Prop :=
  ∀ i < edges.length, ∀ j < edges.length, i ≠ j →
    ¬ samePair (edges.getD i (0, 0)) (edges.getD j (0, 0))

/-- All drawn edge indices are below `E` (as produced by
`np.floor(rd.random() * E)` in the source). -/
def drawsValid (E : ℕ) (draws : List (ℕ × ℕ)) : Prop :=
  ∀ d ∈ draws, d.1 < E ∧ d.2 < E

instance (N : ℕ) (A : ℕ → ℕ → ℕ) : Decidable (symmetric01 N A) := by
  unfold symmetric01; infer_instance

instance (N : ℕ) (edges : List (ℕ × ℕ)) : Decidable (edgesInRange N edges) := by
  unfold edgesInRange; infer_instance

instance (A : ℕ → ℕ → ℕ) (edges : List (ℕ × ℕ)) :
    Decidable (edgesConsistent A edges) := by
  unfold edgesConsistent; infer_instance

instance (e f : ℕ × ℕ) : Decidable (samePair e f) := by
  unfold samePair; infer_instance

instance (edges : List (ℕ × ℕ)) : Decidable (edgesDistinct edges) := by
  unfold edgesDistinct; infer_instance

instance (E : ℕ) (draws : List (ℕ × ℕ)) : Decidable (drawsValid E draws) := by
  unfold drawsValid; infer_instance

/-- A zero distance matrix: with `eps = 1` every geometric condition of
the geomodel is satisfied ("ε large enough"). -/
def geoD0 : ℕ → ℕ → ℚ := fun _ _ => 0

/-- The 6-node graph with the three edges `0-1`, `2-3`, `4-5`. -/
def dupEdgeA : ℕ → ℕ → ℕ :=
  fun x y =>
    if (x, y) ∈ ([(0, 1), (2, 3), (4, 5)] : List (ℕ × ℕ)) ∨
       (y, x) ∈ ([(0, 1), (2, 3), (4, 5)] : List (ℕ × ℕ)) then 1 else 0

/-- A rewiring state for `dupEdgeA` whose edge list mentions the edge
`(0, 1)` twice: consistent with the matrix in the sense of the data
model, but not duplicate-free. -/
def dupEdgeSt : GeoState :=
  { A := dupEdgeA, edges := [(0, 1), (0, 1), (2, 3), (4, 5)] }

/-- A rewiring state for `dupEdgeA` with a duplicate-free edge list. -/
def cleanEdgeSt : GeoState :=
  { A := dupEdgeA, edges := [(0, 1), (2, 3), (4, 5)] }

/-! ## `overwriteAdjacency`, `_randomlyRewireCrossLinks`
(interacting_networks) -/

/-- `overwriteAdjacency`: write the cross-adjacency submatrix into the
full matrix, `A[n1, n2] = A[n2, n1] = cross_A[i, j]`, looping `i` over
`range m` and `j` over `range n` in source order. -/
def overwriteAdjacency (A crossA : ℕ → ℕ → ℕ) (nodes1 nodes2 : List ℕ)
    (m n : ℕ) : ℕ → ℕ → ℕ :=
  (List.range m).foldl
    (fun B i =>
      (List.range n).foldl
        (fun C j => setSym C (nodes1.getD i 0) (nodes2.getD j 0) (crossA i j))
        B)
    A

/-- The four single-entry writes of an accepted cross-link swap:
`cross_A[a, b] = cross_A[c, d] = 0; cross_A[a, d] = cross_A[c, b] = 1`
(in source order, later writes winning). -/
def applyCrossRewire (M : ℕ → ℕ → ℕ) (a b c d : ℕ) : ℕ → ℕ → ℕ :=
  setEntry (setEntry (setEntry (setEntry M a b 0) c d 0) a d 1) c b 1

/-- The mutable state of `_randomlyRewireCrossLinks`: the cross
adjacency matrix and the parallel cross-link list. -/
structure CrossState where
  crossA : ℕ → ℕ → ℕ
  links : List (ℕ × ℕ)

/-- One accepted-or-rejected iteration of the swap loop of
`_randomlyRewireCrossLinks` for drawn link indices `(e1, e2)`: with
`(a, b) = cross_links[e1]` and `(c, d) = cross_links[e2]`, if
`cross_A[a, d]` or `cross_A[c, b]` is nonzero the draw is rejected
(the source retries); otherwise the four entries are rewritten and the
second components of the two link entries are exchanged (in the
sequential order of the source). -/
def crossStep (st : CrossState) (draw : ℕ × ℕ) : CrossState :=
  if st.crossA (st.links.getD draw.1 (0, 0)).1 (st.links.getD draw.2 (0, 0)).2
       = 0 ∧
     st.crossA (st.links.getD draw.2 (0, 0)).1 (st.links.getD draw.1 (0, 0)).2
       = 0 then
    { crossA :=
        applyCrossRewire st.crossA
          (st.links.getD draw.1 (0, 0)).1 (st.links.getD draw.1 (0, 0)).2
          (st.links.getD draw.2 (0, 0)).1 (st.links.getD draw.2 (0, 0)).2
      links :=
        (st.links.set draw.1
          ((st.links.getD draw.1 (0, 0)).1, (st.links.getD draw.2 (0, 0)).2)).set
          draw.2
          ((st.links.getD draw.2 (0, 0)).1, (st.links.getD draw.1 (0, 0)).2) }
  else st

/-- The swap loop of `_randomlyRewireCrossLinks` run on an explicit
list of drawn link-index pairs (rejected draws are retries). -/
def randomlyRewireCrossLinks (st : CrossState) (draws : List (ℕ × ℕ)) :
    CrossState :=
  draws.foldl crossStep st

/-- The cross matrix has 0/1 entries on the `m × n` index range. -/
def crossA01 (m n : ℕ) (A : ℕ → ℕ → ℕ) : Prop :=
  ∀ x < m, ∀ y < n, A x y ≤ 1

/-- Total number of 1-entries (sum of all entries) of the `m × n`
cross matrix. -/
def totalCross (m n : ℕ) (A : ℕ → ℕ → ℕ) : ℕ :=
  ∑ i in range m, rowDeg n A i

/-- Every cross-link entry lies inside the `m × n` cross matrix. -/
def linksInRange (m n : ℕ) (links : List (ℕ × ℕ)) : Prop :=
  ∀ i < links.length,
    (links.getD i (0, 0)).1 < m ∧ (links.getD i (0, 0)).2 < n

/-- Every cross-link entry names a 1-entry of the cross matrix. -/
def linksConsistent (A : ℕ → ℕ → ℕ) (links : List (ℕ × ℕ)) : Prop :=
  ∀ i < links.length,
    A (links.getD i (0, 0)).1 (links.getD i (0, 0)).2 = 1

/-- No two cross-link entries are equal (cross links are ordered pairs,
one endpoint per subnetwork). -/
def linksDistinct (links : List (ℕ × ℕ)) : Prop :=
  ∀ i < links.length, ∀ j < links.length, i ≠ j →
    links.getD i (0, 0) ≠ links.getD j (0, 0)

instance (m n : ℕ) (A : ℕ → ℕ → ℕ) : Decidable (crossA01 m n A) := by
  unfold crossA01; infer_instance

instance (m n : ℕ) (links : List (ℕ × ℕ)) :
    Decidable (linksInRange m n links) := by
  unfold linksInRange; infer_instance

instance (A : ℕ → ℕ → ℕ) (links : List (ℕ × ℕ)) :
    Decidable (linksConsistent A links) := by
  unfold linksConsistent; infer_instance

instance (links : List (ℕ × ℕ)) : Decidable (linksDistinct links) := by
  unfold linksDistinct; infer_instance

/-- The 2×2 identity cross matrix. -/
def idCrossA : ℕ → ℕ → ℕ := fun x y => if x = y ∧ x < 2 then 1 else 0

/-- A cross-link list for `idCrossA` naming the link `(0, 0)` twice. -/
def dupCrossSt : CrossState :=
  { crossA := idCrossA, links := [(0, 0), (0, 0), (1, 1)] }

/-! ## `_local_cliquishness_4thorder` (network) -/

/-- The neighbor array filled by the scan
`for j in range(N): if A[i, j] == 1: neighbors[index] = j`. -/
def neighborsList (N : ℕ) (A : ℕ → ℕ → ℕ) (i : ℕ) : List ℕ :=
  (List.range N).filter (fun j => A i j == 1)

/-- The `counter` triple loop of `_local_cliquishness_4thorder`:
ordered index triples `(j, k, l)` below `d` with
`A[node1, node2] == 1`, `A[node2, node3] == 1` and
`A[node3, node1] == 1`. -/
def cliquishCounter (A : ℕ → ℕ → ℕ) (nb : List ℕ) (d : ℕ) : ℕ :=
  ∑ j in range d, ∑ k in range d,
    if A (nb.getD j 0) (nb.getD k 0) = 1 then
      ∑ l in range d,
        if A (nb.getD k 0) (nb.getD l 0) = 1 ∧
           A (nb.getD l 0) (nb.getD j 0) = 1 then 1 else 0
    else 0

/-- `_local_cliquishness_4thorder`: per node `i`, if
`degree[i] >= order - 1 = 3`, the counter divided by
`degree_i * (degree_i - 1) * (degree_i - 2)`; otherwise the array
keeps its initial 0. -/
def local_cliquishness_4thorder (N : ℕ) (A : ℕ → ℕ → ℕ)
    (degree : ℕ → ℕ) : List ℚ :=
  (List.range N).map fun i =>
    if 3 ≤ degree i then
      (cliquishCounter A (neighborsList N A i) (degree i) : ℚ) /
        ((degree i : ℚ) * ((degree i : ℚ) - 1) * ((degree i : ℚ) - 2))
    else 0

/-- Number of ordered triples of distinct neighbors of `i` whose three
connecting edges are all present (the spec's description of the
4th-order counter). -/
def orderedTripleCliqueCount (N : ℕ) (A : ℕ → ℕ → ℕ) (i : ℕ) : ℕ :=
  (((neighborsList N A i).toFinset ×ˢ (neighborsList N A i).toFinset ×ˢ
      (neighborsList N A i).toFinset).filter
    (fun T => T.1 ≠ T.2.1 ∧ T.2.1 ≠ T.2.2 ∧ T.1 ≠ T.2.2 ∧
      A T.1 T.2.1 = 1 ∧ A T.2.1 T.2.2 = 1 ∧ A T.2.2 T.1 = 1)).card

/-- The complete graph on 5 nodes. -/
def K5A : ℕ → ℕ → ℕ := fun x y => if x < 5 ∧ y < 5 ∧ x ≠ y then 1 else 0

/-- The degree sequence of `K5A`. -/
def K5deg : ℕ → ℕ := fun _ => 4

/-- The degree sequence of `starA3` (node 0 has degree 2). -/
def starDeg3 : ℕ → ℕ := fun i => if i = 0 then 2 else 1

/-! ## `_cross_transitivity` (interacting_networks) -/

/-- The `triples` accumulator of `_cross_transitivity`. -/
def crossTriples (A : ℕ → ℕ → ℕ) (nodes1 nodes2 : List ℕ) : ℕ :=
  ∑ i in range nodes1.length, ∑ j in range nodes2.length,
    if A (nodes1.getD i 0) (nodes2.getD j 0) ≠ 0 then
      ∑ k in range j,
        if A (nodes1.getD i 0) (nodes2.getD k 0) ≠ 0 then 1 else 0
    else 0

/-- The `triangles` accumulator of `_cross_transitivity`. -/
def crossTriangles (A : ℕ → ℕ → ℕ) (nodes1 nodes2 : List ℕ) : ℕ :=
  ∑ i in range nodes1.length, ∑ j in range nodes2.length,
    if A (nodes1.getD i 0) (nodes2.getD j 0) ≠ 0 then
      ∑ k in range j,
        if A (nodes2.getD j 0) (nodes2.getD k 0) ≠ 0 ∧
           A (nodes2.getD k 0) (nodes1.getD i 0) ≠ 0 then 1 else 0
    else 0

/-- `_cross_transitivity`: `triangles / triples` if any triples exist,
else `0.0` (the guard `if triples:` of the source). -/
def cross_transitivity (A : ℕ → ℕ → ℕ) (nodes1 nodes2 : List ℕ) : ℚ :=
  if crossTriples A nodes1 nodes2 ≠ 0 then
    (crossTriangles A nodes1 nodes2 : ℚ) / (crossTriples A nodes1 nodes2 : ℚ)
  else 0

/-! ## `_nsi_cross_transitivity` (interacting_networks)

The two weighted accumulators `T1` and `T2`; the kernel returns
`T1 / T2` with no guard against `T2 == 0`, so the embedding returns
`none` in exactly the case where the Cython float division has a zero
divisor. -/

/-- The `T1` accumulator of `_nsi_cross_transitivity`. -/
def nsiCrossT1 (A : ℕ → ℕ → ℕ) (nodes1 nodes2 : List ℕ) (w : ℕ → ℚ) : ℚ :=
  ∑ v in range nodes1.length, ∑ p in range nodes2.length,
    if A (nodes1.getD v 0) (nodes2.getD p 0) ≠ 0 then
      w (nodes2.getD p 0) * w (nodes2.getD p 0) * w (nodes1.getD v 0) +
      ∑ q in Finset.Ico (p + 1) nodes2.length,
        if A (nodes1.getD v 0) (nodes2.getD q 0) ≠ 0 ∧
           A (nodes2.getD p 0) (nodes2.getD q 0) ≠ 0 then
          2 * w (nodes2.getD p 0) * w (nodes2.getD q 0) * w (nodes1.getD v 0)
        else 0
    else 0

/-- The `T2` accumulator of `_nsi_cross_transitivity`. -/
def nsiCrossT2 (A : ℕ → ℕ → ℕ) (nodes1 nodes2 : List ℕ) (w : ℕ → ℚ) : ℚ :=
  ∑ v in range nodes1.length, ∑ p in range nodes2.length,
    if A (nodes1.getD v 0) (nodes2.getD p 0) ≠ 0 then
      w (nodes2.getD p 0) * w (nodes2.getD p 0) * w (nodes1.getD v 0) +
      ∑ q in Finset.Ico (p + 1) nodes2.length,
        if A (nodes1.getD v 0) (nodes2.getD q 0) ≠ 0 then
          2 * w (nodes2.getD p 0) * w (nodes2.getD q 0) * w (nodes1.getD v 0)
        else 0
    else 0

/-- `_nsi_cross_transitivity`: the unguarded `return T1 / T2`;
`none` models the division-by-zero error when `T2 == 0`. -/
def nsi_cross_transitivity (A : ℕ → ℕ → ℕ) (nodes1 nodes2 : List ℕ)
    (w : ℕ → ℚ) : Option ℚ :=
  if nsiCrossT2 A nodes1 nodes2 w = 0 then none
  else some (nsiCrossT1 A nodes1 nodes2 w / nsiCrossT2 A nodes1 nodes2 w)

/-- Number of cross edges counted by the loop order of the kernels:
one per pair `(i, j)` with `A[nodes1[i], nodes2[j]] != 0`. -/
def crossEdgeCount (A : ℕ → ℕ → ℕ) (nodes1 nodes2 : List ℕ) : ℕ :=
  ∑ i in range nodes1.length, ∑ j in range nodes2.length,
    if A (nodes1.getD i 0) (nodes2.getD j 0) ≠ 0 then 1 else 0

/-! ## The forward phase of `_nsi_betweenness` (network)

The output arrays `betweenness_to_j` / `excess_to_j` are written only
in the initialization and the backward phase; the forward
breadth-first search mutates the distances, the queue, the
multiplicities and the flat predecessor buffers, which form the state
below. -/

/-- The mutable state of the forward phase of `_nsi_betweenness`. -/
structure BFSState where
  dist : ℕ → ℕ
  mult : ℕ → ℚ
  npred : ℕ → ℕ
  flatPred : ℕ → ℕ
  queue : List ℕ
  qi : ℕ

/-- The neighbor block of node `i` in the CSR-like flattened
structure: `flat_neighbors[offsets[i] .. offsets[i] + k[i])`. -/
def nbrList (offsets flatNbrs k : ℕ → ℕ) (i : ℕ) : List ℕ :=
  (List.range (k i)).map fun idx => flatNbrs (offsets i + idx)

/-- The body of the neighbor loop of the forward phase, for the
dequeued node `i` with `next_d = distances_to_j[i] + 1` and neighbor
`l`: if `distances_to_j[l] >= next_d`, register `i` as predecessor of
`l` and accumulate its multiplicity; if moreover
`distances_to_j[l] > next_d` (first discovery), set the distance and
enqueue `l`. The two record results are the source's sequential writes
combined. -/
def relaxNbr (w : ℕ → ℚ) (offsets : ℕ → ℕ) (i next_d : ℕ) (st : BFSState)
    (l : ℕ) : BFSState :=
  if next_d ≤ st.dist l then
    if next_d < st.dist l then
      { dist := Function.update st.dist l next_d
        mult := Function.update st.mult l (st.mult l + w l * st.mult i)
        npred := Function.update st.npred l (st.npred l + 1)
        flatPred := Function.update st.flatPred (offsets l + st.npred l) i
        queue := st.queue ++ [l]
        qi := st.qi }
    else
      { st with
        mult := Function.update st.mult l (st.mult l + w l * st.mult i)
        npred := Function.update st.npred l (st.npred l + 1)
        flatPred := Function.update st.flatPred (offsets l + st.npred l) i }
  else st

/-- Dequeue `i = queue[qi]`, relax all its neighbors, and advance
`qi`. -/
def bfsProcessNode (w : ℕ → ℚ) (offsets flatNbrs k : ℕ → ℕ)
    (st : BFSState) : BFSState :=
  let st' := (nbrList offsets flatNbrs k (st.queue.getD st.qi 0)).foldl
    (relaxNbr w offsets (st.queue.getD st.qi 0)
      (st.dist (st.queue.getD st.qi 0) + 1)) st
  { st' with qi := st'.qi + 1 }

/-- The initial forward-phase state: all distances at the sentinel
`2 * N` except `distances_to_j[j] = 0`, queue seeded with `j`,
`multiplicity_to_j[j] = w[j]`. -/
def bfsInit (N : ℕ) (w : ℕ → ℚ) (j : ℕ) : BFSState :=
  { dist := Function.update (fun _ => 2 * N) j 0
    mult := Function.update (fun _ => 0) j (w j)
    npred := fun _ => 0
    flatPred := fun _ => 0
    queue := [j]
    qi := 0 }

/-- The forward `while qi < queue_len` loop, with explicit fuel (the
real loop dequeues each of the at most `N` enqueued nodes once). -/
def bfsForward (w : ℕ → ℚ) (offsets flatNbrs k : ℕ → ℕ) :
    ℕ → BFSState → BFSState
  | 0, st => st
  | fuel + 1, st =>
    if st.qi < st.queue.length then
      bfsForward w offsets flatNbrs k fuel (bfsProcessNode w offsets flatNbrs k st)
    else st

/-- Reachability from `j` along the CSR neighbor structure. -/
def nbrReach (offsets flatNbrs k : ℕ → ℕ) (j l : ℕ) : Prop :=
  Relation.ReflTransGen (fun a b => b ∈ nbrList offsets flatNbrs k a) j l

/-- The forward-phase invariant: the queue has no duplicates, its
distances are non-decreasing in enqueue order, all its members are
reachable from `j`, non-members keep the sentinel distance, and every
still-queued distance exceeds the current front distance by at most
one. -/
def BFSInv (N j : ℕ) (offsets flatNbrs k : ℕ → ℕ) (st : BFSState) : Prop :=
  st.queue.Nodup ∧
  st.queue.Pairwise (fun a b => st.dist a ≤ st.dist b) ∧
  (∀ l ∈ st.queue, nbrReach offsets flatNbrs k j l) ∧
  (∀ l, l ∉ st.queue → st.dist l = 2 * N) ∧
  (∀ idx, st.qi ≤ idx → idx < st.queue.length →
    st.dist (st.queue.getD idx 0) ≤ st.dist (st.queue.getD st.qi 0) + 1)

/-- The invariant maintained while the neighbors of the dequeued node
`i` (at queue position `q0`, with distance `d0`) are being relaxed:
the global queue properties, plus: every queued distance is at most
`d0 + 1`, the distance of `i` is pinned at `d0`, the queue only grows
from its snapshot `Q0`, and the read position is pinned at `q0`. -/
def MidInv (N j : ℕ) (offsets flatNbrs k : ℕ → ℕ) (i d0 : ℕ)
    (Q0 : List ℕ) (q0 : ℕ) (st : BFSState) : Prop :=
  st.queue.Nodup ∧
  st.queue.Pairwise (fun a b => st.dist a ≤ st.dist b) ∧
  (∀ l ∈ st.queue, nbrReach offsets flatNbrs k j l) ∧
  (∀ l, l ∉ st.queue → st.dist l = 2 * N) ∧
  (∀ x ∈ st.queue, st.dist x ≤ d0 + 1) ∧
  st.dist i = d0 ∧
  (∃ t, st.queue = Q0 ++ t) ∧
  st.qi = q0

/-- Concrete CSR data: nodes 0 and 1 joined by an edge, node 2
isolated (offsets `[0, 1, 2]`, flat neighbors `[1, 0]`, degrees
`[1, 1, 0]`). -/
def bfsOff : ℕ → ℕ := fun i => i

/-- Flat neighbor array `[1, 0]`. -/
def bfsFn : ℕ → ℕ := fun idx => if idx = 0 then 1 else 0

/-- Degree array `[1, 1, 0]`. -/
def bfsK : ℕ → ℕ := fun i => if i ≤ 1 then 1 else 0

/-! ## `_mpi_newman_betweenness` (network) -/

/-- `_mpi_newman_betweenness`: for each source row `i_rel` of the row
range `[start_i, end_i)`, the triple loop over `j` (neighbors by
`this_A`), `s` and `t < s` (both `!= i_abs`), accumulating
`|Vis_minus_Vjs - V[i_abs, t] + V[j, t]|`; returns
`(this_betweenness, start_i, end_i)`. -/
def mpi_newman_betweenness (thisA : ℕ → ℕ → ℕ) (V : ℕ → ℕ → ℚ)
    (N start_i end_i : ℕ) : List ℚ × ℕ × ℕ :=
  ((List.range (end_i - start_i)).map fun i_rel =>
    ∑ j in range N,
      if thisA i_rel j ≠ 0 then
        ∑ s in range N,
          if i_rel + start_i ≠ s then
            ∑ t in range s,
              if i_rel + start_i ≠ t then
                |V (i_rel + start_i) s - V j s - V (i_rel + start_i) t
                  + V j t|
              else 0
          else 0
      else 0,
   start_i, end_i)

/-- A 1×2 row block with a single neighbor entry at `(0, 1)`. -/
def mpiA : ℕ → ℕ → ℕ := fun r j => if r = 0 ∧ j = 1 then 1 else 0

/-- A concrete potential matrix. -/
def mpiV : ℕ → ℕ → ℚ := fun i j => (i : ℚ) + 2 * (j : ℚ)

/-- A concrete 3-node graph with no cross edges between `[0]` and
`[1, 2]`: only the edge `1 - 2` is present. -/
def noCrossA : ℕ → ℕ → ℕ :=
  fun x y => if (x = 1 ∧ y = 2) ∨ (x = 2 ∧ y = 1) then 1 else 0

/-- A 3-node graph with edges `0-1` and `0-2` only. -/
def starA3 : ℕ → ℕ → ℕ :=
  fun x y => if (x, y) ∈ ([(0, 1), (0, 2)] : List (ℕ × ℕ)) ∨
                (y, x) ∈ ([(0, 1), (0, 2)] : List (ℕ × ℕ)) then 1 else 0

/-- An asymmetric 3-node "adjacency" matrix: `A[0,1] = A[1,0] = 1`,
`A[0,2] = 1` but `A[2,0] = 0`, `A[2,1] = 1` but `A[1,2] = 0`. -/
def asymA : ℕ → ℕ → ℕ :=
  fun x y =>
    if (x, y) ∈ ([(0, 1), (1, 0), (0, 2), (2, 1)] : List (ℕ × ℕ)) then 1
    else 0

/-- `asymA` with garbage entries outside the 3×3 block. -/
def asymB : ℕ → ℕ → ℕ :=
  fun x y => if 3 ≤ x ∨ 3 ≤ y then 7 else asymA x y

/-- A 2×2 cross-adjacency submatrix with a single 1-entry at `(0, 1)`. -/
def crossW : ℕ → ℕ → ℕ := fun i j => if i = 0 ∧ j = 1 then 1 else 0

/-! # Theorems -/

/-! ## Generic helper lemmas -/

lemma getD_set_same {α : Type} (l : List α) (i : ℕ) (a d : α)
    (h : i < l.length) : (l.set i a).getD i d = a := by
  rw [List.getD_eq_getElem _ d (by simpa using h)]
  exact List.getElem_set_self _

lemma getD_set_other {α : Type} (l : List α) {i j : ℕ} (a d : α)
    (hij : i ≠ j) : (l.set i a).getD j d = l.getD j d := by
  by_cases hj : j < l.length
  · rw [List.getD_eq_getElem _ d (by simpa using hj),
      List.getD_eq_getElem _ d hj]
    exact List.getElem_set_of_ne hij a _
  · have h1 : l.length ≤ j := le_of_not_lt hj
    rw [List.getD_eq_default _ d (by simpa using h1),
      List.getD_eq_default _ d h1]

/-- Reindexing a sum over pairs `k < j < n` as a sum over
`p < q < n` with the roles exchanged. -/
lemma sum_range_pairs_comm {M : Type} [AddCommMonoid M] (n : ℕ)
    (f : ℕ → ℕ → M) :
    ∑ j in range n, ∑ k in range j, f j k
      = ∑ p in range n, ∑ q in Finset.Ico (p + 1) n, f q p := by
  induction n with
  | zero => simp
  | succ n ih =>
    rw [Finset.sum_range_succ, ih, Finset.sum_range_succ, Finset.Ico_self,
      Finset.sum_empty, add_zero]
    have h : ∀ p ∈ range n,
        (∑ q in Finset.Ico (p + 1) (n + 1), f q p)
          = (∑ q in Finset.Ico (p + 1) n, f q p) + f n p := by
      intro p hp
      exact Finset.sum_Ico_succ_top (Nat.succ_le_of_lt (Finset.mem_range.mp hp)) _
    rw [Finset.sum_congr rfl h, Finset.sum_add_distrib]

lemma ite_guard_sum {M : Type} [AddCommMonoid M] {c : Prop} [Decidable c]
    {s : Finset ℕ} (f : ℕ → M) :
    (if c then ∑ x in s, f x else 0) = ∑ x in s, if c then f x else 0 := by
  split_ifs with h <;> simp

lemma ite_ite_and {M : Type} [Zero M] {c d : Prop} [Decidable c] [Decidable d]
    (a : M) :
    (if c then (if d then a else 0) else 0) = if c ∧ d then a else 0 := by
  by_cases hc : c <;> by_cases hd : d <;> simp [hc, hd]

lemma ite_add_sum_split {M : Type} [AddCommMonoid M] {c : Prop} [Decidable c]
    (a : M) {s : Finset ℕ} (f : ℕ → M) :
    (if c then a + ∑ x in s, f x else 0)
      = (if c then a else 0) + ∑ x in s, (if c then f x else 0) := by
  split_ifs with h <;> simp

/-- Two sums over `range N` agree if the summands agree except at two
places `a ≠ b` whose contributions balance. -/
lemma sum_two_swap (N a b : ℕ) (f g : ℕ → ℕ) (haN : a < N) (hbN : b < N)
    (hab : a ≠ b) (hfg : ∀ y, y < N → y ≠ a → y ≠ b → f y = g y)
    (hpair : f a + f b = g a + g b) :
    ∑ y in range N, f y = ∑ y in range N, g y := by
  have ha : a ∈ range N := Finset.mem_range.mpr haN
  have hb : b ∈ (range N).erase a :=
    Finset.mem_erase.mpr ⟨Ne.symm hab, Finset.mem_range.mpr hbN⟩
  rw [← Finset.add_sum_erase _ f ha, ← Finset.add_sum_erase _ g ha,
    ← Finset.add_sum_erase _ f hb, ← Finset.add_sum_erase _ g hb]
  have hrest : ∑ y in ((range N).erase a).erase b, f y
      = ∑ y in ((range N).erase a).erase b, g y := by
    refine Finset.sum_congr rfl fun y hy => ?_
    have hyb : y ≠ b := (Finset.mem_erase.mp hy).1
    have hy' := (Finset.mem_erase.mp hy).2
    exact hfg y (Finset.mem_range.mp (Finset.mem_erase.mp hy').2)
      (Finset.mem_erase.mp hy').1 hyb
  rw [hrest]
  omega

/-- A row sum is unchanged when exactly the two entries `c0` (1 → 0)
and `c1` (0 → 1) of the row change. -/
lemma rowDeg_two_change (N r c0 c1 : ℕ) (B A : ℕ → ℕ → ℕ)
    (hc0 : c0 < N) (hc1 : c1 < N) (hne : c0 ≠ c1)
    (h0 : B r c0 = 0) (h0A : A r c0 = 1) (h1 : B r c1 = 1) (h1A : A r c1 = 0)
    (hrest : ∀ y, y < N → y ≠ c0 → y ≠ c1 → B r y = A r y) :
    rowDeg N B r = rowDeg N A r := by
  unfold rowDeg
  exact sum_two_swap N c0 c1 _ _ hc0 hc1 hne hrest (by omega)

/-! ## The geomodel double-edge swap (C1, C6) -/

/-- Pointwise value of the four symmetric writes of a swap. -/
lemma applySwap_apply (A : ℕ → ℕ → ℕ) (s t k l x y : ℕ) :
    applySwap A s t k l x y =
      if (x = t ∧ y = k) ∨ (x = k ∧ y = t) then 1
      else if (x = s ∧ y = l) ∨ (x = l ∧ y = s) then 1
      else if (x = k ∧ y = l) ∨ (x = l ∧ y = k) then 0
      else if (x = s ∧ y = t) ∨ (x = t ∧ y = s) then 0
      else A x y := rfl

/-- An entry away from the four rewritten links is unchanged. -/
lemma applySwap_untouched (A : ℕ → ℕ → ℕ) (s t k l x y : ℕ)
    (h1 : ¬ ((x = t ∧ y = k) ∨ (x = k ∧ y = t)))
    (h2 : ¬ ((x = s ∧ y = l) ∨ (x = l ∧ y = s)))
    (h3 : ¬ ((x = k ∧ y = l) ∨ (x = l ∧ y = k)))
    (h4 : ¬ ((x = s ∧ y = t) ∨ (x = t ∧ y = s))) :
    applySwap A s t k l x y = A x y := by
  rw [applySwap_apply, if_neg h1, if_neg h2, if_neg h3, if_neg h4]

lemma setSym_symm_point (A : ℕ → ℕ → ℕ) (i j v x y : ℕ)
    (h : A x y = A y x) : setSym A i j v x y = setSym A i j v y x := by
  unfold setSym
  by_cases hc : (x = i ∧ y = j) ∨ (x = j ∧ y = i)
  · rw [if_pos hc, if_pos (by tauto)]
  · rw [if_neg hc, if_neg (by tauto), h]

lemma setSym_le_one (A : ℕ → ℕ → ℕ) (i j v x y : ℕ) (hv : v ≤ 1)
    (h : A x y ≤ 1) : setSym A i j v x y ≤ 1 := by
  unfold setSym
  split_ifs <;> assumption

lemma setSym_diag (A : ℕ → ℕ → ℕ) (i j v x : ℕ) (hij : i ≠ j)
    (h : A x x = 0) : setSym A i j v x x = 0 := by
  unfold setSym
  rw [if_neg (by omega)]
  exact h

/-- The swap preserves the symmetric-0/1-zero-diagonal invariant. -/
lemma applySwap_symmetric01 (N : ℕ) (A : ℕ → ℕ → ℕ) (s t k l : ℕ)
    (hsym01 : symmetric01 N A) (hst : s ≠ t) (hsl : s ≠ l) (htk : t ≠ k)
    (hkl : k ≠ l) : symmetric01 N (applySwap A s t k l) := by
  obtain ⟨hsymA, h01A, hdiagA⟩ := hsym01
  refine ⟨?_, ?_, ?_⟩
  · intro x hx y hy
    exact setSym_symm_point _ _ _ _ _ _ (setSym_symm_point _ _ _ _ _ _
      (setSym_symm_point _ _ _ _ _ _ (setSym_symm_point _ _ _ _ _ _
        (hsymA x hx y hy))))
  · intro x hx y hy
    exact setSym_le_one _ _ _ _ _ _ (by omega) (setSym_le_one _ _ _ _ _ _
      (by omega) (setSym_le_one _ _ _ _ _ _ (by omega)
        (setSym_le_one _ _ _ _ _ _ (by omega) (h01A x hx y hy))))
  · intro x hx
    exact setSym_diag _ _ _ _ _ htk (setSym_diag _ _ _ _ _ hsl
      (setSym_diag _ _ _ _ _ hkl (setSym_diag _ _ _ _ _ hst (hdiagA x hx))))

set_option maxHeartbeats 800000 in
/-- The swap rewrites the two chosen edge-list rows and preserves
range, consistency and pairwise distinctness of the edge list. -/
lemma swap_preserves_edges (N : ℕ) (A : ℕ → ℕ → ℕ) (edges : List (ℕ × ℕ))
    (e1 e2 s t k l : ℕ)
    (hrange : edgesInRange N edges) (hcons : edgesConsistent A edges)
    (hdist : edgesDistinct edges)
    (h1 : e1 < edges.length) (h2 : e2 < edges.length)
    (hs : edges.getD e1 (0, 0) = (s, t)) (hk : edges.getD e2 (0, 0) = (k, l))
    (hsk : s ≠ k) (hsl : s ≠ l) (htk : t ≠ k) (htl : t ≠ l)
    (hst_ne : s ≠ t) (hkl_ne : k ≠ l) (he12 : e1 ≠ e2)
    (hAsl : A s l = 0) (hAtk : A t k = 0) (hAls : A l s = 0)
    (hAkt : A k t = 0)
    (hsN : s < N) (htN : t < N) (hkN : k < N) (hlN : l < N) :
    edgesInRange N ((edges.set e1 (s, l)).set e2 (k, t)) ∧
    edgesConsistent (applySwap A s t k l)
      ((edges.set e1 (s, l)).set e2 (k, t)) ∧
    edgesDistinct ((edges.set e1 (s, l)).set e2 (k, t)) := by
  have hBsl : applySwap A s t k l s l = 1 := by
    rw [applySwap_apply, if_neg (by omega), if_pos (by omega)]
  have hBkt : applySwap A s t k l k t = 1 := by
    rw [applySwap_apply, if_pos (by omega)]
  have hlen : ((edges.set e1 (s, l)).set e2 (k, t)).length = edges.length := by
    rw [List.length_set, List.length_set]
  have hget2 : ((edges.set e1 (s, l)).set e2 (k, t)).getD e2 (0, 0) = (k, t) :=
    getD_set_same _ _ _ _ (by rw [List.length_set]; exact h2)
  have hget1 : ((edges.set e1 (s, l)).set e2 (k, t)).getD e1 (0, 0) = (s, l) := by
    rw [getD_set_other _ _ _ (Ne.symm he12)]
    exact getD_set_same _ _ _ _ h1
  have hgetO : ∀ i, i ≠ e1 → i ≠ e2 →
      ((edges.set e1 (s, l)).set e2 (k, t)).getD i (0, 0)
        = edges.getD i (0, 0) := by
    intro i hi1 hi2
    rw [getD_set_other _ _ _ (Ne.symm hi2), getD_set_other _ _ _ (Ne.symm hi1)]
  have hPval : ∀ i, i < edges.length → i ≠ e1 → i ≠ e2 →
      applySwap A s t k l (edges.getD i (0, 0)).1 (edges.getD i (0, 0)).2
        = A (edges.getD i (0, 0)).1 (edges.getD i (0, 0)).2 := by
    intro i hi hi1 hi2
    have hPc := hcons i hi
    have hd1 := hdist i hi e1 h1 hi1
    have hd2 := hdist i hi e2 h2 hi2
    rw [hs] at hd1
    rw [hk] at hd2
    simp only [samePair] at hd1 hd2
    apply applySwap_untouched
    · rintro (⟨ha, hb⟩ | ⟨ha, hb⟩)
      · rw [ha, hb] at hPc; omega
      · rw [ha, hb] at hPc; omega
    · rintro (⟨ha, hb⟩ | ⟨ha, hb⟩)
      · rw [ha, hb] at hPc; omega
      · rw [ha, hb] at hPc; omega
    · exact hd2
    · exact hd1
  refine ⟨?_, ?_, ?_⟩
  · -- range
    intro i hi
    rw [hlen] at hi
    by_cases hi2 : i = e2
    · rw [hi2, hget2]; exact ⟨hkN, htN⟩
    by_cases hi1 : i = e1
    · rw [hi1, hget1]; exact ⟨hsN, hlN⟩
    · rw [hgetO i hi1 hi2]; exact hrange i hi
  · -- consistency
    intro i hi
    rw [hlen] at hi
    by_cases hi2 : i = e2
    · rw [hi2, hget2]; exact hBkt
    by_cases hi1 : i = e1
    · rw [hi1, hget1]; exact hBsl
    · rw [hgetO i hi1 hi2, hPval i hi hi1 hi2]; exact hcons i hi
  · -- distinctness
    intro i hi j hj hij
    rw [hlen] at hi hj
    by_cases hi2 : i = e2 <;> by_cases hi1 : i = e1 <;>
      by_cases hj2 : j = e2 <;> by_cases hj1 : j = e1
    all_goals try omega
    · -- i = e2, j = e1
      rw [hi2, hj1, hget2, hget1]
      simp only [samePair]
      omega
    · -- i = e2, j old
      rw [hi2, hget2, hgetO j hj1 hj2]
      have hPc := hcons j hj
      simp only [samePair]
      rintro (⟨ha, hb⟩ | ⟨ha, hb⟩)
      · rw [← ha, ← hb] at hPc; omega
      · rw [← ha, ← hb] at hPc; omega
    · -- i = e1, j = e2
      rw [hi1, hj2, hget1, hget2]
      simp only [samePair]
      omega
    · -- i = e1, j old
      rw [hi1, hget1, hgetO j hj1 hj2]
      have hPc := hcons j hj
      simp only [samePair]
      rintro (⟨ha, hb⟩ | ⟨ha, hb⟩)
      · rw [← ha, ← hb] at hPc; omega
      · rw [← ha, ← hb] at hPc; omega
    · -- i old, j = e2
      rw [hj2, hget2, hgetO i hi1 hi2]
      have hPc := hcons i hi
      simp only [samePair]
      rintro (⟨ha, hb⟩ | ⟨ha, hb⟩)
      · rw [ha, hb] at hPc; omega
      · rw [ha, hb] at hPc; omega
    · -- i old, j = e1
      rw [hj1, hget1, hgetO i hi1 hi2]
      have hPc := hcons i hi
      simp only [samePair]
      rintro (⟨ha, hb⟩ | ⟨ha, hb⟩)
      · rw [ha, hb] at hPc; omega
      · rw [ha, hb] at hPc; omega
    · -- both old
      rw [hgetO i hi1 hi2, hgetO j hj1 hj2]
      exact hdist i hi j hj hij

set_option maxHeartbeats 800000 in
/-- The swap leaves every row degree of the adjacency matrix
unchanged. -/
lemma swap_preserves_degrees (N : ℕ) (A : ℕ → ℕ → ℕ) (s t k l : ℕ)
    (hsk : s ≠ k) (hsl : s ≠ l) (htk : t ≠ k) (htl : t ≠ l)
    (hst_ne : s ≠ t) (hkl_ne : k ≠ l)
    (hAst : A s t = 1) (hAts : A t s = 1) (hAkl : A k l = 1)
    (hAlk : A l k = 1)
    (hAsl : A s l = 0) (hAls : A l s = 0) (hAtk : A t k = 0)
    (hAkt : A k t = 0)
    (hsN : s < N) (htN : t < N) (hkN : k < N) (hlN : l < N) :
    ∀ i, rowDeg N (applySwap A s t k l) i = rowDeg N A i := by
  have hBst : applySwap A s t k l s t = 0 := by
    rw [applySwap_apply, if_neg (by omega), if_neg (by omega),
      if_neg (by omega), if_pos (by omega)]
  have hBts : applySwap A s t k l t s = 0 := by
    rw [applySwap_apply, if_neg (by omega), if_neg (by omega),
      if_neg (by omega), if_pos (by omega)]
  have hBkl : applySwap A s t k l k l = 0 := by
    rw [applySwap_apply, if_neg (by omega), if_neg (by omega),
      if_pos (by omega)]
  have hBlk : applySwap A s t k l l k = 0 := by
    rw [applySwap_apply, if_neg (by omega), if_neg (by omega),
      if_pos (by omega)]
  have hBsl : applySwap A s t k l s l = 1 := by
    rw [applySwap_apply, if_neg (by omega), if_pos (by omega)]
  have hBls : applySwap A s t k l l s = 1 := by
    rw [applySwap_apply, if_neg (by omega), if_pos (by omega)]
  have hBtk : applySwap A s t k l t k = 1 := by
    rw [applySwap_apply, if_pos (by omega)]
  have hBkt : applySwap A s t k l k t = 1 := by
    rw [applySwap_apply, if_pos (by omega)]
  intro i
  by_cases his : i = s
  · rw [his]
    exact rowDeg_two_change N s t l _ _ htN hlN htl hBst hAst hBsl hAsl
      (fun y hy hyt hyl => applySwap_untouched A s t k l s y
        (by omega) (by omega) (by omega) (by omega))
  by_cases hit : i = t
  · rw [hit]
    exact rowDeg_two_change N t s k _ _ hsN hkN hsk hBts hAts hBtk hAtk
      (fun y hy hys hyk => applySwap_untouched A s t k l t y
        (by omega) (by omega) (by omega) (by omega))
  by_cases hik : i = k
  · rw [hik]
    exact rowDeg_two_change N k l t _ _ hlN htN (Ne.symm htl) hBkl hAkl
      hBkt hAkt
      (fun y hy hyl hyt => applySwap_untouched A s t k l k y
        (by omega) (by omega) (by omega) (by omega))
  by_cases hil : i = l
  · rw [hil]
    exact rowDeg_two_change N l k s _ _ hkN hsN (Ne.symm hsk) hBlk hAlk
      hBls hAls
      (fun y hy hyk hys => applySwap_untouched A s t k l l y
        (by omega) (by omega) (by omega) (by omega))
  · unfold rowDeg
    refine Finset.sum_congr rfl fun y _ => ?_
    exact applySwap_untouched A s t k l i y
      (by omega) (by omega) (by omega) (by omega)

/-- An accepted double-edge swap preserves the adjacency invariant,
edge-list consistency, range, pairwise distinctness, the edge-list
length, and every row degree. -/
lemma swap_state_preserves (N : ℕ) (A : ℕ → ℕ → ℕ) (edges : List (ℕ × ℕ))
    (e1 e2 s t k l : ℕ)
    (hsym01 : symmetric01 N A) (hrange : edgesInRange N edges)
    (hcons : edgesConsistent A edges) (hdist : edgesDistinct edges)
    (h1 : e1 < edges.length) (h2 : e2 < edges.length)
    (hs : edges.getD e1 (0, 0) = (s, t)) (hk : edges.getD e2 (0, 0) = (k, l))
    (hsk : s ≠ k) (hsl : s ≠ l) (htk : t ≠ k) (htl : t ≠ l)
    (hAsl : A s l = 0) (hAtk : A t k = 0) :
    symmetric01 N (applySwap A s t k l) ∧
    edgesInRange N ((edges.set e1 (s, l)).set e2 (k, t)) ∧
    edgesConsistent (applySwap A s t k l)
      ((edges.set e1 (s, l)).set e2 (k, t)) ∧
    edgesDistinct ((edges.set e1 (s, l)).set e2 (k, t)) ∧
    ((edges.set e1 (s, l)).set e2 (k, t)).length = edges.length ∧
    (∀ i, rowDeg N (applySwap A s t k l) i = rowDeg N A i) := by
  have hsymA := hsym01.1
  have hdiagA := hsym01.2.2
  have hAst : A s t = 1 := by have h := hcons e1 h1; rw [hs] at h; exact h
  have hAkl : A k l = 1 := by have h := hcons e2 h2; rw [hk] at h; exact h
  have hsN : s < N := by have h := (hrange e1 h1).1; rw [hs] at h; exact h
  have htN : t < N := by have h := (hrange e1 h1).2; rw [hs] at h; exact h
  have hkN : k < N := by have h := (hrange e2 h2).1; rw [hk] at h; exact h
  have hlN : l < N := by have h := (hrange e2 h2).2; rw [hk] at h; exact h
  have hst_ne : s ≠ t := by intro h; rw [h, hdiagA t htN] at hAst; omega
  have hkl_ne : k ≠ l := by intro h; rw [h, hdiagA l hlN] at hAkl; omega
  have he12 : e1 ≠ e2 := by
    intro h
    rw [h, hk] at hs
    injection hs with hx hy
    exact hsk hx.symm
  have hAts : A t s = 1 := by rw [hsymA t htN s hsN]; exact hAst
  have hAlk : A l k = 1 := by rw [hsymA l hlN k hkN]; exact hAkl
  have hAls : A l s = 0 := by rw [hsymA l hlN s hsN]; exact hAsl
  have hAkt : A k t = 0 := by rw [hsymA k hkN t htN]; exact hAtk
  obtain ⟨hr, hc, hd⟩ := swap_preserves_edges N A edges e1 e2 s t k l
    hrange hcons hdist h1 h2 hs hk hsk hsl htk htl hst_ne hkl_ne he12
    hAsl hAtk hAls hAkt hsN htN hkN hlN
  exact ⟨applySwap_symmetric01 N A s t k l hsym01 hst_ne hsl htk hkl_ne,
    hr, hc, hd, by rw [List.length_set, List.length_set],
    swap_preserves_degrees N A s t k l hsk hsl htk htl hst_ne hkl_ne
      hAst hAts hAkl hAlk hAsl hAls hAtk hAkt hsN htN hkN hlN⟩

/-- One `geoStep` preserves the data-model invariant, edge-list
consistency and all row degrees. -/
lemma geoStep_preserves (condLen : ℕ → ℕ → ℕ → ℕ → Bool)
    (condDeg : Option (ℕ → ℕ → ℕ → ℕ → Bool)) (N : ℕ) (st : GeoState)
    (draw : ℕ × ℕ)
    (hsym01 : symmetric01 N st.A) (hrange : edgesInRange N st.edges)
    (hcons : edgesConsistent st.A st.edges) (hdist : edgesDistinct st.edges)
    (h1 : draw.1 < st.edges.length) (h2 : draw.2 < st.edges.length) :
    symmetric01 N (geoStep condLen condDeg st draw).A ∧
    edgesInRange N (geoStep condLen condDeg st draw).edges ∧
    edgesConsistent (geoStep condLen condDeg st draw).A
      (geoStep condLen condDeg st draw).edges ∧
    edgesDistinct (geoStep condLen condDeg st draw).edges ∧
    (geoStep condLen condDeg st draw).edges.length = st.edges.length ∧
    (∀ i, rowDeg N (geoStep condLen condDeg st draw).A i
      = rowDeg N st.A i) := by
  unfold geoStep
  by_cases hacc : geoAccept condLen condDeg st.A
      (st.edges.getD draw.1 (0, 0)).1 (st.edges.getD draw.1 (0, 0)).2
      (st.edges.getD draw.2 (0, 0)).1 (st.edges.getD draw.2 (0, 0)).2
  · rw [if_pos hacc]
    obtain ⟨hsk, hsl, htk, htl, hAsl, hAtk, -, -⟩ := hacc
    exact swap_state_preserves N st.A st.edges draw.1 draw.2
      (st.edges.getD draw.1 (0, 0)).1 (st.edges.getD draw.1 (0, 0)).2
      (st.edges.getD draw.2 (0, 0)).1 (st.edges.getD draw.2 (0, 0)).2
      hsym01 hrange hcons hdist h1 h2 Prod.mk.eta Prod.mk.eta
      hsk hsl htk htl hAsl hAtk
  · rw [if_neg hacc]
    exact ⟨hsym01, hrange, hcons, hdist, rfl, fun i => rfl⟩

/-- A full `_randomly_rewire_geomodel` run preserves the data-model
invariant, the edge-list properties, the edge-list length, and all row
degrees, for any draw list with in-range indices. -/
lemma geomodel_run_preserves (condLen : ℕ → ℕ → ℕ → ℕ → Bool)
    (condDeg : Option (ℕ → ℕ → ℕ → ℕ → Bool)) (N : ℕ)
    (draws : List (ℕ × ℕ)) :
    ∀ st : GeoState, symmetric01 N st.A → edgesInRange N st.edges →
      edgesConsistent st.A st.edges → edgesDistinct st.edges →
      drawsValid st.edges.length draws →
      symmetric01 N (randomly_rewire_geomodel condLen condDeg st draws).A ∧
      edgesInRange N (randomly_rewire_geomodel condLen condDeg st draws).edges ∧
      edgesConsistent (randomly_rewire_geomodel condLen condDeg st draws).A
        (randomly_rewire_geomodel condLen condDeg st draws).edges ∧
      edgesDistinct (randomly_rewire_geomodel condLen condDeg st draws).edges ∧
      (randomly_rewire_geomodel condLen condDeg st draws).edges.length
        = st.edges.length ∧
      (∀ i, rowDeg N (randomly_rewire_geomodel condLen condDeg st draws).A i
        = rowDeg N st.A i) := by
  induction draws with
  | nil =>
    intro st h1 h2 h3 h4 _
    exact ⟨h1, h2, h3, h4, rfl, fun i => rfl⟩
  | cons d ds ih =>
    intro st hsym01 hrange hcons hdist hdraws
    have hd := hdraws d (List.mem_cons_self d ds)
    obtain ⟨hs1, hs2, hs3, hs4, hs5, hs6⟩ :=
      geoStep_preserves condLen condDeg N st d hsym01 hrange hcons hdist
        hd.1 hd.2
    have hdraws2 : drawsValid (geoStep condLen condDeg st d).edges.length ds := by
      intro e he
      rw [hs5]
      exact hdraws e (List.mem_cons_of_mem d he)
    obtain ⟨hh1, hh2, hh3, hh4, hh5, hh6⟩ := ih (geoStep condLen condDeg st d)
      hs1 hs2 hs3 hs4 hdraws2
    exact ⟨hh1, hh2, hh3, hh4, hh5.trans hs5, fun i => (hh6 i).trans (hs6 i)⟩

/-- C1 (amended): if additionally no two edge-list entries name the
same undirected link, any geomodel rewiring run preserves every node
degree and the total number of adjacency-matrix entries. -/
theorem geomodel_rewire_preserves_degrees (condLen : ℕ → ℕ → ℕ → ℕ → Bool)
    (condDeg : Option (ℕ → ℕ → ℕ → ℕ → Bool)) (N : ℕ) (st : GeoState)
    (draws : List (ℕ × ℕ))
    (hsym01 : symmetric01 N st.A) (hrange : edgesInRange N st.edges)
    (hcons : edgesConsistent st.A st.edges) (hdist : edgesDistinct st.edges)
    (hdraws : drawsValid st.edges.length draws) :
    (∀ i, rowDeg N (randomly_rewire_geomodel condLen condDeg st draws).A i
      = rowDeg N st.A i) ∧
    totalAdj N (randomly_rewire_geomodel condLen condDeg st draws).A
      = totalAdj N st.A := by
  have h := geomodel_run_preserves condLen condDeg N draws st hsym01 hrange
    hcons hdist hdraws
  refine ⟨h.2.2.2.2.2, ?_⟩
  unfold totalAdj
  exact Finset.sum_congr rfl fun i _ => h.2.2.2.2.2 i

/-- Witness for the amended C1 at a concrete accepted swap: the 6-node
graph `0-1, 2-3, 4-5`, duplicate-free edge list, one draw `(0, 1)`
(which swaps the edges `0-1` and `2-3`). -/
theorem geomodel_rewire_preserves_degrees_witness :
    (∀ i, rowDeg 6 (randomly_rewire_geomodel (cond_len_c1 geoD0 1) none
        cleanEdgeSt [(0, 1)]).A i = rowDeg 6 cleanEdgeSt.A i) ∧
    totalAdj 6 (randomly_rewire_geomodel (cond_len_c1 geoD0 1) none
        cleanEdgeSt [(0, 1)]).A = totalAdj 6 cleanEdgeSt.A :=
  geomodel_rewire_preserves_degrees (cond_len_c1 geoD0 1) none 6 cleanEdgeSt
    [(0, 1)] (by decide) (by decide) (by decide) (by decide) (by decide)

/-- C6 (amended): under the same added distinctness hypothesis, any
geomodel rewiring run keeps the matrix symmetric 0/1 with zero diagonal
and keeps every edge-list entry naming a 1-entry of the matrix. -/
theorem geomodel_rewire_preserves_invariant (condLen : ℕ → ℕ → ℕ → ℕ → Bool)
    (condDeg : Option (ℕ → ℕ → ℕ → ℕ → Bool)) (N : ℕ) (st : GeoState)
    (draws : List (ℕ × ℕ))
    (hsym01 : symmetric01 N st.A) (hrange : edgesInRange N st.edges)
    (hcons : edgesConsistent st.A st.edges) (hdist : edgesDistinct st.edges)
    (hdraws : drawsValid st.edges.length draws) :
    symmetric01 N (randomly_rewire_geomodel condLen condDeg st draws).A ∧
    edgesConsistent (randomly_rewire_geomodel condLen condDeg st draws).A
      (randomly_rewire_geomodel condLen condDeg st draws).edges ∧
    edgesInRange N (randomly_rewire_geomodel condLen condDeg st draws).edges ∧
    edgesDistinct (randomly_rewire_geomodel condLen condDeg st draws).edges ∧
    (randomly_rewire_geomodel condLen condDeg st draws).edges.length
      = st.edges.length := by
  have h := geomodel_run_preserves condLen condDeg N draws st hsym01 hrange
    hcons hdist hdraws
  exact ⟨h.1, h.2.2.1, h.2.1, h.2.2.2.1, h.2.2.2.2.1⟩

/-- Witness for the amended C6 at the same concrete accepted swap. -/
theorem geomodel_rewire_preserves_invariant_witness :
    symmetric01 6 (randomly_rewire_geomodel (cond_len_c1 geoD0 1) none
      cleanEdgeSt [(0, 1)]).A ∧
    edgesConsistent (randomly_rewire_geomodel (cond_len_c1 geoD0 1) none
        cleanEdgeSt [(0, 1)]).A
      (randomly_rewire_geomodel (cond_len_c1 geoD0 1) none
        cleanEdgeSt [(0, 1)]).edges ∧
    edgesInRange 6 (randomly_rewire_geomodel (cond_len_c1 geoD0 1) none
      cleanEdgeSt [(0, 1)]).edges ∧
    edgesDistinct (randomly_rewire_geomodel (cond_len_c1 geoD0 1) none
      cleanEdgeSt [(0, 1)]).edges ∧
    (randomly_rewire_geomodel (cond_len_c1 geoD0 1) none
      cleanEdgeSt [(0, 1)]).edges.length = cleanEdgeSt.edges.length :=
  geomodel_rewire_preserves_invariant (cond_len_c1 geoD0 1) none 6 cleanEdgeSt
    [(0, 1)] (by decide) (by decide) (by decide) (by decide) (by decide)

/-- With the zero distance matrix and `eps = 1`, condition C1 always
holds ("ε large enough to always satisfy the constraint"). -/
lemma cond_len_c1_geoD0 : cond_len_c1 geoD0 1 = fun _ _ _ _ => true := by
  funext s t k l
  simp only [cond_len_c1, geoD0, Bool.or_eq_true, Bool.and_eq_true,
    decide_eq_true_eq]
  norm_num

/-- C1 counterexample: a state satisfying all hypotheses of the claim
(symmetric 0/1 zero-diagonal matrix, edge list consistent with it, all
draws in range) on which two accepted swaps of
`_randomly_rewire_geomodel_I` change the degree of node 0 from 1 to 2.
The edge list mentions the link `0-1` twice; after the first swap the
stale duplicate entry lets the second swap create an edge without
deleting one. -/
theorem geomodel_rewire_changes_degree_with_duplicate_edges :
    symmetric01 6 dupEdgeSt.A ∧
    edgesInRange 6 dupEdgeSt.edges ∧
    edgesConsistent dupEdgeSt.A dupEdgeSt.edges ∧
    drawsValid dupEdgeSt.edges.length [(0, 2), (1, 3)] ∧
    rowDeg 6 dupEdgeSt.A 0 = 1 ∧
    rowDeg 6 (randomly_rewire_geomodel_I geoD0 1 dupEdgeSt
      [(0, 2), (1, 3)]).A 0 = 2 := by
  refine ⟨by decide, by decide, by decide, by decide, by decide, ?_⟩
  show rowDeg 6 (randomly_rewire_geomodel (cond_len_c1 geoD0 1) none
    dupEdgeSt [(0, 2), (1, 3)]).A 0 = 2
  rw [cond_len_c1_geoD0]
  decide

/-- C6 counterexample: on the same duplicate-entry state, already one
accepted swap of `_randomly_rewire_geomodel_I` leaves an edge-list
entry naming a 0-entry of the matrix: edge-list consistency is not
preserved. -/
theorem geomodel_rewire_breaks_consistency_with_duplicate_edges :
    symmetric01 6 dupEdgeSt.A ∧
    edgesInRange 6 dupEdgeSt.edges ∧
    edgesConsistent dupEdgeSt.A dupEdgeSt.edges ∧
    drawsValid dupEdgeSt.edges.length [(0, 2)] ∧
    ¬ edgesConsistent (randomly_rewire_geomodel_I geoD0 1 dupEdgeSt
        [(0, 2)]).A
      (randomly_rewire_geomodel_I geoD0 1 dupEdgeSt [(0, 2)]).edges := by
  refine ⟨by decide, by decide, by decide, by decide, ?_⟩
  show ¬ edgesConsistent (randomly_rewire_geomodel (cond_len_c1 geoD0 1) none
      dupEdgeSt [(0, 2)]).A
    (randomly_rewire_geomodel (cond_len_c1 geoD0 1) none
      dupEdgeSt [(0, 2)]).edges
  rw [cond_len_c1_geoD0]
  decide

/-! ## C2: cross transitivity on zero cross-edges -/

/-- C2: on two disjoint node subsets with zero cross-edges, the
unweighted kernel returns `0`, but the node-weighted kernel
`_nsi_cross_transitivity` runs into an unguarded `T1 / T2` division
with `T2 = 0` (modelled as `none`) instead of returning `0`. -/
theorem nsi_cross_transitivity_zero_cross_divides_by_zero :
    cross_transitivity noCrossA [0] [1, 2] = 0 ∧
    nsiCrossT2 noCrossA [0] [1, 2] (fun _ => 1) = 0 ∧
    nsi_cross_transitivity noCrossA [0] [1, 2] (fun _ => 1) = none := by
  refine ⟨by decide, ?_, ?_⟩ <;>
    norm_num [nsi_cross_transitivity, nsiCrossT2, noCrossA,
      Finset.sum_range_succ, Finset.sum_Ico_succ_top, List.getD]

/-! ## C3: unit-weight NSI cross transitivity vs. the classical one -/

/-- The triple count of `_cross_transitivity`, rewritten as a sum over
index pairs `p < q` of subnetwork 2. -/
lemma crossTriples_pairs (A : ℕ → ℕ → ℕ) (n1 n2 : List ℕ) :
    crossTriples A n1 n2
      = ∑ v in range n1.length, ∑ p in range n2.length,
          ∑ q in Finset.Ico (p + 1) n2.length,
            if A (n1.getD v 0) (n2.getD p 0) ≠ 0 ∧
               A (n1.getD v 0) (n2.getD q 0) ≠ 0 then 1 else 0 := by
  unfold crossTriples
  refine Finset.sum_congr rfl fun v _ => ?_
  have h1 : ∀ j ∈ range n2.length,
      (if A (n1.getD v 0) (n2.getD j 0) ≠ 0 then
        ∑ k in range j,
          if A (n1.getD v 0) (n2.getD k 0) ≠ 0 then 1 else 0
       else 0)
        = ∑ k in range j,
            if A (n1.getD v 0) (n2.getD j 0) ≠ 0 ∧
               A (n1.getD v 0) (n2.getD k 0) ≠ 0 then 1 else 0 := by
    intro j _
    rw [ite_guard_sum]
    exact Finset.sum_congr rfl fun k _ => ite_ite_and 1
  rw [Finset.sum_congr rfl h1,
    sum_range_pairs_comm n2.length
      (fun j k => if A (n1.getD v 0) (n2.getD j 0) ≠ 0 ∧
          A (n1.getD v 0) (n2.getD k 0) ≠ 0 then (1 : ℕ) else 0)]
  refine Finset.sum_congr rfl fun p _ => Finset.sum_congr rfl fun q _ => ?_
  exact if_congr and_comm rfl rfl

/-- The triangle count of `_cross_transitivity`, rewritten as a sum over
index pairs `p < q` of subnetwork 2 (uses symmetry of `A`). -/
lemma crossTriangles_pairs (A : ℕ → ℕ → ℕ) (n1 n2 : List ℕ)
    (hsym : ∀ x y, A x y = A y x) :
    crossTriangles A n1 n2
      = ∑ v in range n1.length, ∑ p in range n2.length,
          ∑ q in Finset.Ico (p + 1) n2.length,
            if A (n1.getD v 0) (n2.getD p 0) ≠ 0 ∧
               A (n1.getD v 0) (n2.getD q 0) ≠ 0 ∧
               A (n2.getD p 0) (n2.getD q 0) ≠ 0 then 1 else 0 := by
  unfold crossTriangles
  refine Finset.sum_congr rfl fun v _ => ?_
  have h1 : ∀ j ∈ range n2.length,
      (if A (n1.getD v 0) (n2.getD j 0) ≠ 0 then
        ∑ k in range j,
          if A (n2.getD j 0) (n2.getD k 0) ≠ 0 ∧
             A (n2.getD k 0) (n1.getD v 0) ≠ 0 then 1 else 0
       else 0)
        = ∑ k in range j,
            if A (n1.getD v 0) (n2.getD j 0) ≠ 0 ∧
               (A (n2.getD j 0) (n2.getD k 0) ≠ 0 ∧
                A (n2.getD k 0) (n1.getD v 0) ≠ 0) then 1 else 0 := by
    intro j _
    rw [ite_guard_sum]
    exact Finset.sum_congr rfl fun k _ => ite_ite_and 1
  rw [Finset.sum_congr rfl h1,
    sum_range_pairs_comm n2.length
      (fun j k => if A (n1.getD v 0) (n2.getD j 0) ≠ 0 ∧
          (A (n2.getD j 0) (n2.getD k 0) ≠ 0 ∧
           A (n2.getD k 0) (n1.getD v 0) ≠ 0) then (1 : ℕ) else 0)]
  refine Finset.sum_congr rfl fun p _ => Finset.sum_congr rfl fun q _ => ?_
  rw [show A (n2.getD q 0) (n2.getD p 0) = A (n2.getD p 0) (n2.getD q 0) from
      hsym _ _,
    show A (n2.getD p 0) (n1.getD v 0) = A (n1.getD v 0) (n2.getD p 0) from
      hsym _ _]
  exact if_congr (by tauto) rfl rfl

/-- With unit node weights, the `T2` accumulator of
`_nsi_cross_transitivity` equals the cross-edge count plus twice the
classical triple count. -/
lemma nsiCrossT2_unit_weights (A : ℕ → ℕ → ℕ) (n1 n2 : List ℕ) :
    nsiCrossT2 A n1 n2 (fun _ => 1)
      = (crossEdgeCount A n1 n2 : ℚ) + 2 * (crossTriples A n1 n2 : ℚ) := by
  rw [crossTriples_pairs]
  unfold nsiCrossT2 crossEdgeCount
  push_cast
  rw [Finset.mul_sum, ← Finset.sum_add_distrib]
  refine Finset.sum_congr rfl fun v _ => ?_
  rw [Finset.mul_sum, ← Finset.sum_add_distrib]
  refine Finset.sum_congr rfl fun p _ => ?_
  simp only [mul_one, one_mul]
  rw [ite_add_sum_split, Finset.mul_sum]
  congr 1
  refine Finset.sum_congr rfl fun q _ => ?_
  rw [ite_ite_and]
  split_ifs with h <;> norm_num

/-- With unit node weights, the `T1` accumulator of
`_nsi_cross_transitivity` equals the cross-edge count plus twice the
classical triangle count. -/
lemma nsiCrossT1_unit_weights (A : ℕ → ℕ → ℕ) (n1 n2 : List ℕ)
    (hsym : ∀ x y, A x y = A y x) :
    nsiCrossT1 A n1 n2 (fun _ => 1)
      = (crossEdgeCount A n1 n2 : ℚ) + 2 * (crossTriangles A n1 n2 : ℚ) := by
  rw [crossTriangles_pairs A n1 n2 hsym]
  unfold nsiCrossT1 crossEdgeCount
  push_cast
  rw [Finset.mul_sum, ← Finset.sum_add_distrib]
  refine Finset.sum_congr rfl fun v _ => ?_
  rw [Finset.mul_sum, ← Finset.sum_add_distrib]
  refine Finset.sum_congr rfl fun p _ => ?_
  simp only [mul_one, one_mul]
  rw [ite_add_sum_split, Finset.mul_sum]
  congr 1
  refine Finset.sum_congr rfl fun q _ => ?_
  rw [ite_ite_and]
  split_ifs with h <;> norm_num

/-- C3 (amended): with unit node weights and a symmetric adjacency
matrix that has at least one cross edge, `_nsi_cross_transitivity`
returns `(E + 2·triangles) / (E + 2·triples)` where `E` is the number
of cross edges — not the classical ratio `triangles / triples`. -/
theorem nsi_cross_transitivity_unit_weight_formula (A : ℕ → ℕ → ℕ)
    (n1 n2 : List ℕ) (hsym : ∀ x y, A x y = A y x)
    (hE : crossEdgeCount A n1 n2 ≠ 0) :
    nsi_cross_transitivity A n1 n2 (fun _ => 1)
      = some (((crossEdgeCount A n1 n2 : ℚ) + 2 * (crossTriangles A n1 n2 : ℚ))
          / ((crossEdgeCount A n1 n2 : ℚ) + 2 * (crossTriples A n1 n2 : ℚ))) := by
  have hpos : (0 : ℚ) < (crossEdgeCount A n1 n2 : ℚ)
      + 2 * (crossTriples A n1 n2 : ℚ) := by
    have h1 : (0 : ℚ) < (crossEdgeCount A n1 n2 : ℚ) := by
      exact_mod_cast Nat.pos_of_ne_zero hE
    have h2 : (0 : ℚ) ≤ (crossTriples A n1 n2 : ℚ) := by positivity
    linarith
  unfold nsi_cross_transitivity
  rw [nsiCrossT1_unit_weights A n1 n2 hsym, nsiCrossT2_unit_weights A n1 n2,
    if_neg (by exact ne_of_gt hpos)]

lemma starA3_symm : ∀ x y, starA3 x y = starA3 y x :=
  fun _ _ => if_congr or_comm rfl rfl

/-- Witness for the amended C3 formula at the concrete graph `starA3`
(`E = 2`, `triangles = 0`, `triples = 1`, so the value is `1/2`). -/
theorem nsi_cross_transitivity_unit_weight_formula_witness :
    crossEdgeCount starA3 [0] [1, 2] ≠ 0 ∧
    nsi_cross_transitivity starA3 [0] [1, 2] (fun _ => 1) = some (1 / 2) := by
  refine ⟨by decide, ?_⟩
  rw [nsi_cross_transitivity_unit_weight_formula starA3 [0] [1, 2] starA3_symm
    (by decide)]
  norm_num [show crossEdgeCount starA3 [0] [1, 2] = 2 from by decide,
    show crossTriangles starA3 [0] [1, 2] = 0 from by decide,
    show crossTriples starA3 [0] [1, 2] = 1 from by decide]

/-- C3 counterexample: on `starA3` (symmetric, disjoint subsets, at
least one cross edge) the all-ones-weight NSI cross transitivity is
`1/2`, while the classical cross transitivity is `0`: the two kernels
do not agree. -/
theorem nsi_cross_transitivity_unit_weights_ne_classical :
    (∀ x y, starA3 x y = starA3 y x) ∧
    (∀ x ∈ ([0] : List ℕ), x ∉ ([1, 2] : List ℕ)) ∧
    crossEdgeCount starA3 [0] [1, 2] ≠ 0 ∧
    cross_transitivity starA3 [0] [1, 2] = 0 ∧
    nsi_cross_transitivity starA3 [0] [1, 2] (fun _ => 1)
      ≠ some (cross_transitivity starA3 [0] [1, 2]) := by
  have hcross : cross_transitivity starA3 [0] [1, 2] = 0 := by
    unfold cross_transitivity
    rw [show crossTriangles starA3 [0] [1, 2] = 0 from by decide,
      show crossTriples starA3 [0] [1, 2] = 1 from by decide]
    norm_num
  refine ⟨starA3_symm, by decide, by decide, hcross, ?_⟩
  have h : nsi_cross_transitivity starA3 [0] [1, 2] (fun _ => 1)
      = some (1 / 2) := by
    unfold nsi_cross_transitivity
    norm_num [nsiCrossT1, nsiCrossT2, starA3, Finset.sum_range_succ,
      Finset.sum_Ico_succ_top, List.getD]
  rw [h, hcross]
  intro hcontra
  have : (1 / 2 : ℚ) = 0 := Option.some.inj hcontra
  norm_num at this

/-! ## C9: no input validation in the cross-transitivity kernels -/

lemma getD_mem_append_left (n1 n2 : List ℕ) (i : ℕ) (hi : i < n1.length) :
    n1.getD i 0 ∈ n1 ++ n2 := by
  rw [List.getD_eq_getElem _ _ hi]
  exact List.mem_append_left _ (List.getElem_mem _)

lemma getD_mem_append_right (n1 n2 : List ℕ) (j : ℕ) (hj : j < n2.length) :
    n2.getD j 0 ∈ n1 ++ n2 := by
  rw [List.getD_eq_getElem _ _ hj]
  exact List.mem_append_right _ (List.getElem_mem _)

/-- C9 (amended): the kernels perform no input validation — their
results depend only on the matrix entries and weights indexed by the
two node lists, whatever those values are; nothing about the rest of
the input (shape, symmetry, weight sign) is inspected. -/
theorem cross_kernels_read_only_listed_entries (A B : ℕ → ℕ → ℕ)
    (n1 n2 : List ℕ) (w w' : ℕ → ℚ)
    (hAB : ∀ x ∈ n1 ++ n2, ∀ y ∈ n1 ++ n2, A x y = B x y)
    (hw : ∀ x ∈ n1 ++ n2, w x = w' x) :
    cross_transitivity A n1 n2 = cross_transitivity B n1 n2 ∧
    nsi_cross_transitivity A n1 n2 w = nsi_cross_transitivity B n1 n2 w' := by
  have hm1 : ∀ i, i < n1.length → n1.getD i 0 ∈ n1 ++ n2 :=
    fun i hi => getD_mem_append_left n1 n2 i hi
  have hm2 : ∀ j, j < n2.length → n2.getD j 0 ∈ n1 ++ n2 :=
    fun j hj => getD_mem_append_right n1 n2 j hj
  have htp : crossTriples A n1 n2 = crossTriples B n1 n2 := by
    unfold crossTriples
    refine Finset.sum_congr rfl fun i hi => Finset.sum_congr rfl fun j hj => ?_
    rw [hAB _ (hm1 i (Finset.mem_range.mp hi)) _ (hm2 j (Finset.mem_range.mp hj))]
    refine if_congr Iff.rfl (Finset.sum_congr rfl fun kk hk => ?_) rfl
    rw [hAB _ (hm1 i (Finset.mem_range.mp hi)) _
      (hm2 kk (lt_trans (Finset.mem_range.mp hk) (Finset.mem_range.mp hj)))]
  have htr : crossTriangles A n1 n2 = crossTriangles B n1 n2 := by
    unfold crossTriangles
    refine Finset.sum_congr rfl fun i hi => Finset.sum_congr rfl fun j hj => ?_
    rw [hAB _ (hm1 i (Finset.mem_range.mp hi)) _ (hm2 j (Finset.mem_range.mp hj))]
    refine if_congr Iff.rfl (Finset.sum_congr rfl fun kk hk => ?_) rfl
    have hkk := lt_trans (Finset.mem_range.mp hk) (Finset.mem_range.mp hj)
    rw [hAB _ (hm2 j (Finset.mem_range.mp hj)) _ (hm2 kk hkk),
      hAB _ (hm2 kk hkk) _ (hm1 i (Finset.mem_range.mp hi))]
  have hT1 : nsiCrossT1 A n1 n2 w = nsiCrossT1 B n1 n2 w' := by
    unfold nsiCrossT1
    refine Finset.sum_congr rfl fun v hv => Finset.sum_congr rfl fun p hp => ?_
    have hvm := hm1 v (Finset.mem_range.mp hv)
    have hpm := hm2 p (Finset.mem_range.mp hp)
    rw [hAB _ hvm _ hpm]
    refine if_congr Iff.rfl ?_ rfl
    rw [hw _ hpm, hw _ hvm]
    congr 1
    refine Finset.sum_congr rfl fun q hq => ?_
    have hqm := hm2 q (Finset.mem_Ico.mp hq).2
    rw [hAB _ hvm _ hqm, hAB _ hpm _ hqm, hw _ hqm]
  have hT2 : nsiCrossT2 A n1 n2 w = nsiCrossT2 B n1 n2 w' := by
    unfold nsiCrossT2
    refine Finset.sum_congr rfl fun v hv => Finset.sum_congr rfl fun p hp => ?_
    have hvm := hm1 v (Finset.mem_range.mp hv)
    have hpm := hm2 p (Finset.mem_range.mp hp)
    rw [hAB _ hvm _ hpm]
    refine if_congr Iff.rfl ?_ rfl
    rw [hw _ hpm, hw _ hvm]
    congr 1
    refine Finset.sum_congr rfl fun q hq => ?_
    have hqm := hm2 q (Finset.mem_Ico.mp hq).2
    rw [hAB _ hvm _ hqm, hw _ hqm]
  refine ⟨?_, ?_⟩
  · unfold cross_transitivity
    rw [htp, htr]
  · unfold nsi_cross_transitivity
    rw [hT1, hT2]

/-- Witness for the amended C9: `asymB` differs from `asymA` only
outside the listed 3×3 block, and both kernels (with negative weights)
return identical values on the two matrices. -/
theorem cross_kernels_read_only_listed_entries_witness :
    cross_transitivity asymA [0] [1, 2] = cross_transitivity asymB [0] [1, 2] ∧
    nsi_cross_transitivity asymA [0] [1, 2] (fun _ => -1)
      = nsi_cross_transitivity asymB [0] [1, 2] (fun _ => -1) :=
  cross_kernels_read_only_listed_entries asymA asymB [0] [1, 2]
    (fun _ => -1) (fun _ => -1) (by decide) (fun _ _ => rfl)

/-- C9 counterexample: on the asymmetric matrix `asymA` the kernel
`_cross_transitivity` silently computes 1 (and 0 on the transposed
matrix, so the asymmetric data is used as given, not rejected or
symmetrized), and `_nsi_cross_transitivity` accepts the non-positive
weight vector `-1` and computes `1/2`: no malformed-input failure
occurs before computation. -/
theorem cross_kernels_compute_on_malformed_input :
    asymA 1 2 ≠ asymA 2 1 ∧
    cross_transitivity asymA [0] [1, 2] = 1 ∧
    cross_transitivity (fun x y => asymA y x) [0] [1, 2] = 0 ∧
    nsi_cross_transitivity asymA [0] [1, 2] (fun _ => -1) = some (1 / 2) := by
  refine ⟨by decide, ?_, ?_, ?_⟩
  · unfold cross_transitivity
    rw [show crossTriangles asymA [0] [1, 2] = 1 from by decide,
      show crossTriples asymA [0] [1, 2] = 1 from by decide]
    norm_num
  · unfold cross_transitivity
    rw [show crossTriples (fun x y => asymA y x) [0] [1, 2] = 0 from by decide]
    norm_num
  · unfold nsi_cross_transitivity
    norm_num [nsiCrossT1, nsiCrossT2, asymA, Finset.sum_range_succ,
      Finset.sum_Ico_succ_top, List.getD]

/-! ## C5: the adjacency-overwrite routine -/

/-- A fold of symmetric writes leaves a position untouched by every
write unchanged. -/
lemma foldl_setSym_untouched (a b v : ℕ → ℕ) (n : ℕ) :
    ∀ (A : ℕ → ℕ → ℕ) (x y : ℕ),
      (∀ j < n, ¬ ((x = a j ∧ y = b j) ∨ (x = b j ∧ y = a j))) →
      ((List.range n).foldl (fun C j => setSym C (a j) (b j) (v j)) A) x y
        = A x y := by
  induction n with
  | zero =>
    intro A x y _
    rfl
  | succ n ih =>
    intro A x y h
    rw [List.range_succ, List.foldl_append, List.foldl_cons, List.foldl_nil]
    show setSym ((List.range n).foldl
      (fun C j => setSym C (a j) (b j) (v j)) A) (a n) (b n) (v n) x y = A x y
    unfold setSym
    rw [if_neg (h n (by omega))]
    exact ih A x y (fun j hj => h j (by omega))

/-- In a fold of symmetric writes, a write not followed by another
write to the same unordered position determines the final value there
(in both orientations). -/
lemma foldl_setSym_value (a b v : ℕ → ℕ) (n : ℕ) :
    ∀ (A : ℕ → ℕ → ℕ) (j0 : ℕ), j0 < n →
      (∀ j, j0 < j → j < n →
        ¬ ((a j0 = a j ∧ b j0 = b j) ∨ (a j0 = b j ∧ b j0 = a j))) →
      ((List.range n).foldl (fun C j => setSym C (a j) (b j) (v j)) A)
          (a j0) (b j0) = v j0 ∧
      ((List.range n).foldl (fun C j => setSym C (a j) (b j) (v j)) A)
          (b j0) (a j0) = v j0 := by
  induction n with
  | zero =>
    intro A j0 h _
    omega
  | succ n ih =>
    intro A j0 hj0 hlater
    rw [List.range_succ, List.foldl_append, List.foldl_cons, List.foldl_nil]
    by_cases hj : j0 = n
    · subst hj
      constructor
      · show setSym _ (a j0) (b j0) (v j0) (a j0) (b j0) = v j0
        unfold setSym
        rw [if_pos (by tauto)]
      · show setSym _ (a j0) (b j0) (v j0) (b j0) (a j0) = v j0
        unfold setSym
        rw [if_pos (by tauto)]
    · have hj0n : j0 < n := by omega
      have hnt := hlater n (by omega) (by omega)
      have ihr := ih A j0 hj0n (fun j h1 h2 => hlater j h1 (by omega))
      constructor
      · show setSym _ (a n) (b n) (v n) (a j0) (b j0) = v j0
        unfold setSym
        rw [if_neg (by tauto)]
        exact ihr.1
      · show setSym _ (a n) (b n) (v n) (b j0) (a j0) = v j0
        unfold setSym
        rw [if_neg (by tauto)]
        exact ihr.2

/-- Value of `overwriteAdjacency` at the block positions, by induction
over the row loop. -/
lemma overwriteAdjacency_getD (A crossA : ℕ → ℕ → ℕ)
    (nodes1 nodes2 : List ℕ) (n : ℕ) :
    ∀ m : ℕ,
      (∀ i1 < m, ∀ i2 < m, nodes1.getD i1 0 = nodes1.getD i2 0 → i1 = i2) →
      (∀ j1 < n, ∀ j2 < n, nodes2.getD j1 0 = nodes2.getD j2 0 → j1 = j2) →
      (∀ i < m, ∀ j < n, nodes1.getD i 0 ≠ nodes2.getD j 0) →
      ∀ i0 < m, ∀ j0 < n,
        overwriteAdjacency A crossA nodes1 nodes2 m n (nodes1.getD i0 0)
          (nodes2.getD j0 0) = crossA i0 j0 ∧
        overwriteAdjacency A crossA nodes1 nodes2 m n (nodes2.getD j0 0)
          (nodes1.getD i0 0) = crossA i0 j0 := by
  intro m
  induction m with
  | zero =>
    intro _ _ _ i0 hi0
    omega
  | succ m ih =>
    intro hinj1 hinj2 hdisj i0 hi0 j0 hj0
    unfold overwriteAdjacency
    rw [List.range_succ, List.foldl_append, List.foldl_cons, List.foldl_nil]
    by_cases hi : i0 = m
    · subst hi
      have hlater : ∀ j, j0 < j → j < n →
          ¬ ((nodes1.getD i0 0 = nodes1.getD i0 0 ∧
              nodes2.getD j0 0 = nodes2.getD j 0) ∨
             (nodes1.getD i0 0 = nodes2.getD j 0 ∧
              nodes2.getD j0 0 = nodes1.getD i0 0)) := by
        intro j h1 h2
        rintro (⟨-, hβ⟩ | ⟨hα, -⟩)
        · exact absurd (hinj2 j0 hj0 j h2 hβ) (by omega)
        · exact hdisj i0 hi0 j h2 hα
      exact foldl_setSym_value (fun _ => nodes1.getD i0 0)
        (fun j => nodes2.getD j 0) (fun j => crossA i0 j) n _ j0 hj0 hlater
    · have hi0m : i0 < m := by omega
      have h1 : ∀ j < n,
          ¬ ((nodes1.getD i0 0 = nodes1.getD m 0 ∧
              nodes2.getD j0 0 = nodes2.getD j 0) ∨
             (nodes1.getD i0 0 = nodes2.getD j 0 ∧
              nodes2.getD j0 0 = nodes1.getD m 0)) := by
        intro j hj
        rintro (⟨hα, -⟩ | ⟨hα, -⟩)
        · exact hi (hinj1 i0 hi0 m (by omega) hα)
        · exact hdisj i0 hi0 j hj hα
      have h2 : ∀ j < n,
          ¬ ((nodes2.getD j0 0 = nodes1.getD m 0 ∧
              nodes1.getD i0 0 = nodes2.getD j 0) ∨
             (nodes2.getD j0 0 = nodes2.getD j 0 ∧
              nodes1.getD i0 0 = nodes1.getD m 0)) := by
        intro j hj
        rintro (⟨hα, -⟩ | ⟨-, hβ⟩)
        · exact hdisj m (by omega) j0 hj0 hα.symm
        · exact hi (hinj1 i0 hi0 m (by omega) hβ)
      have ihr := ih (fun i1 hi1 i2 hi2 => hinj1 i1 (by omega) i2 (by omega))
        hinj2 (fun i hi' j hj => hdisj i (by omega) j hj) i0 hi0m j0 hj0
      constructor
      · rw [foldl_setSym_untouched (fun _ => nodes1.getD m 0)
          (fun j => nodes2.getD j 0) (fun j => crossA m j) n _ _ _ h1]
        exact ihr.1
      · rw [foldl_setSym_untouched (fun _ => nodes1.getD m 0)
          (fun j => nodes2.getD j 0) (fun j => crossA m j) n _ _ _ h2]
        exact ihr.2

/-- C5: after `overwriteAdjacency(A, cross_A, nodes1, nodes2, m, n)`
(with the two subnetwork index sets internally distinct and disjoint,
as they are for the interacting-network callers), the restriction of
the full matrix to the two index sets equals the cross-adjacency
submatrix and its transpose. -/
theorem overwriteAdjacency_restriction (A crossA : ℕ → ℕ → ℕ)
    (nodes1 nodes2 : List ℕ) (m n : ℕ)
    (hinj1 : ∀ i1 < m, ∀ i2 < m, nodes1.getD i1 0 = nodes1.getD i2 0 → i1 = i2)
    (hinj2 : ∀ j1 < n, ∀ j2 < n, nodes2.getD j1 0 = nodes2.getD j2 0 → j1 = j2)
    (hdisj : ∀ i < m, ∀ j < n, nodes1.getD i 0 ≠ nodes2.getD j 0) :
    ∀ i < m, ∀ j < n,
      overwriteAdjacency A crossA nodes1 nodes2 m n (nodes1.getD i 0)
        (nodes2.getD j 0) = crossA i j ∧
      overwriteAdjacency A crossA nodes1 nodes2 m n (nodes2.getD j 0)
        (nodes1.getD i 0) = crossA i j :=
  fun i hi j hj =>
    overwriteAdjacency_getD A crossA nodes1 nodes2 n m hinj1 hinj2 hdisj
      i hi j hj

/-- Witness for C5 at a concrete instance: `nodes1 = [0, 1]`,
`nodes2 = [2, 3]`, `cross_A = crossW`, full matrix constantly 5
beforehand; position `(i, j) = (0, 1)` receives `crossW 0 1 = 1`. -/
theorem overwriteAdjacency_restriction_witness :
    overwriteAdjacency (fun _ _ => 5) crossW [0, 1] [2, 3] 2 2 0 3
      = crossW 0 1 ∧
    overwriteAdjacency (fun _ _ => 5) crossW [0, 1] [2, 3] 2 2 3 0
      = crossW 0 1 :=
  overwriteAdjacency_restriction (fun _ _ => 5) crossW [0, 1] [2, 3] 2 2
    (by decide) (by decide) (by decide) 0 (by decide) 1 (by decide)

/-! ## C10: the cross-link endpoint swap -/

/-- Pointwise value of the four entry writes of a cross-link swap. -/
lemma applyCrossRewire_apply (M : ℕ → ℕ → ℕ) (a b c d x y : ℕ) :
    applyCrossRewire M a b c d x y =
      if x = c ∧ y = b then 1
      else if x = a ∧ y = d then 1
      else if x = c ∧ y = d then 0
      else if x = a ∧ y = b then 0
      else M x y := rfl

/-- An entry away from the four rewritten positions is unchanged. -/
lemma applyCrossRewire_untouched (M : ℕ → ℕ → ℕ) (a b c d x y : ℕ)
    (h1 : ¬ (x = c ∧ y = b)) (h2 : ¬ (x = a ∧ y = d))
    (h3 : ¬ (x = c ∧ y = d)) (h4 : ¬ (x = a ∧ y = b)) :
    applyCrossRewire M a b c d x y = M x y := by
  rw [applyCrossRewire_apply, if_neg h1, if_neg h2, if_neg h3, if_neg h4]

/-- A column sum over the first `m` rows is unchanged when exactly the
two rows `r0` (1 → 0) and `r1` (0 → 1) of the column change. -/
lemma colSum_two_change (m q r0 r1 : ℕ) (B A : ℕ → ℕ → ℕ)
    (hr0 : r0 < m) (hr1 : r1 < m) (hne : r0 ≠ r1)
    (h0 : B r0 q = 0) (h0A : A r0 q = 1) (h1 : B r1 q = 1) (h1A : A r1 q = 0)
    (hrest : ∀ x, x < m → x ≠ r0 → x ≠ r1 → B x q = A x q) :
    colSumUpTo m B q = colSumUpTo m A q := by
  unfold colSumUpTo
  exact sum_two_swap m r0 r1 _ _ hr0 hr1 hne hrest (by omega)

set_option maxHeartbeats 800000 in
/-- An accepted cross-link swap preserves 0/1-ness, the link-list
properties, every row sum, and every column sum. -/
lemma crossRewire_state_preserves (m n : ℕ) (M : ℕ → ℕ → ℕ)
    (links : List (ℕ × ℕ)) (e1 e2 a b c d : ℕ)
    (h01 : crossA01 m n M) (hrange : linksInRange m n links)
    (hcons : linksConsistent M links) (hdist : linksDistinct links)
    (h1 : e1 < links.length) (h2 : e2 < links.length)
    (ha : links.getD e1 (0, 0) = (a, b)) (hc : links.getD e2 (0, 0) = (c, d))
    (had : M a d = 0) (hcb : M c b = 0) :
    crossA01 m n (applyCrossRewire M a b c d) ∧
    linksInRange m n ((links.set e1 (a, d)).set e2 (c, b)) ∧
    linksConsistent (applyCrossRewire M a b c d)
      ((links.set e1 (a, d)).set e2 (c, b)) ∧
    linksDistinct ((links.set e1 (a, d)).set e2 (c, b)) ∧
    ((links.set e1 (a, d)).set e2 (c, b)).length = links.length ∧
    (∀ p, rowDeg n (applyCrossRewire M a b c d) p = rowDeg n M p) ∧
    (∀ q, colSumUpTo m (applyCrossRewire M a b c d) q
      = colSumUpTo m M q) := by
  have hMab : M a b = 1 := by have h := hcons e1 h1; rw [ha] at h; exact h
  have hMcd : M c d = 1 := by have h := hcons e2 h2; rw [hc] at h; exact h
  have haM : a < m := by have h := (hrange e1 h1).1; rw [ha] at h; exact h
  have hbN : b < n := by have h := (hrange e1 h1).2; rw [ha] at h; exact h
  have hcM : c < m := by have h := (hrange e2 h2).1; rw [hc] at h; exact h
  have hdN : d < n := by have h := (hrange e2 h2).2; rw [hc] at h; exact h
  have hac : a ≠ c := by intro h; rw [← h] at hcb; omega
  have hbd : b ≠ d := by intro h; rw [← h] at had; omega
  have he12 : e1 ≠ e2 := by
    intro h
    rw [h, hc] at ha
    injection ha with hx hy
    exact hac hx.symm
  have hBcb : applyCrossRewire M a b c d c b = 1 := by
    rw [applyCrossRewire_apply, if_pos ⟨rfl, rfl⟩]
  have hBad : applyCrossRewire M a b c d a d = 1 := by
    rw [applyCrossRewire_apply, if_neg (by omega), if_pos (by omega)]
  have hBcd : applyCrossRewire M a b c d c d = 0 := by
    rw [applyCrossRewire_apply, if_neg (by omega), if_neg (by omega),
      if_pos (by omega)]
  have hBab : applyCrossRewire M a b c d a b = 0 := by
    rw [applyCrossRewire_apply, if_neg (by omega), if_neg (by omega),
      if_neg (by omega), if_pos (by omega)]
  have hlen : ((links.set e1 (a, d)).set e2 (c, b)).length = links.length := by
    rw [List.length_set, List.length_set]
  have hget2 : ((links.set e1 (a, d)).set e2 (c, b)).getD e2 (0, 0) = (c, b) :=
    getD_set_same _ _ _ _ (by rw [List.length_set]; exact h2)
  have hget1 : ((links.set e1 (a, d)).set e2 (c, b)).getD e1 (0, 0) = (a, d) := by
    rw [getD_set_other _ _ _ (Ne.symm he12)]
    exact getD_set_same _ _ _ _ h1
  have hgetO : ∀ i, i ≠ e1 → i ≠ e2 →
      ((links.set e1 (a, d)).set e2 (c, b)).getD i (0, 0)
        = links.getD i (0, 0) := by
    intro i hi1 hi2
    rw [getD_set_other _ _ _ (Ne.symm hi2), getD_set_other _ _ _ (Ne.symm hi1)]
  have hPval : ∀ i, i < links.length → i ≠ e1 → i ≠ e2 →
      applyCrossRewire M a b c d (links.getD i (0, 0)).1 (links.getD i (0, 0)).2
        = M (links.getD i (0, 0)).1 (links.getD i (0, 0)).2 := by
    intro i hi hi1 hi2
    have hPc := hcons i hi
    have hd1 := hdist i hi e1 h1 hi1
    have hd2 := hdist i hi e2 h2 hi2
    rw [ha] at hd1
    rw [hc] at hd2
    apply applyCrossRewire_untouched
    · rintro ⟨hα, hβ⟩
      rw [hα, hβ] at hPc
      omega
    · rintro ⟨hα, hβ⟩
      rw [hα, hβ] at hPc
      omega
    · rintro ⟨hα, hβ⟩
      exact hd2 (by rw [← hα, ← hβ])
    · rintro ⟨hα, hβ⟩
      exact hd1 (by rw [← hα, ← hβ])
  refine ⟨?_, ?_, ?_, ?_, hlen, ?_, ?_⟩
  · -- 0/1 entries
    intro x hx y hy
    rw [applyCrossRewire_apply]
    split_ifs <;> first | omega | exact h01 x hx y hy
  · -- range
    intro i hi
    rw [hlen] at hi
    by_cases hi2 : i = e2
    · rw [hi2, hget2]; exact ⟨hcM, hbN⟩
    by_cases hi1 : i = e1
    · rw [hi1, hget1]; exact ⟨haM, hdN⟩
    · rw [hgetO i hi1 hi2]; exact hrange i hi
  · -- consistency
    intro i hi
    rw [hlen] at hi
    by_cases hi2 : i = e2
    · rw [hi2, hget2]; exact hBcb
    by_cases hi1 : i = e1
    · rw [hi1, hget1]; exact hBad
    · rw [hgetO i hi1 hi2, hPval i hi hi1 hi2]; exact hcons i hi
  · -- distinctness
    intro i hi j hj hij
    rw [hlen] at hi hj
    by_cases hi2 : i = e2 <;> by_cases hi1 : i = e1 <;>
      by_cases hj2 : j = e2 <;> by_cases hj1 : j = e1
    all_goals try omega
    · -- i = e2, j = e1
      rw [hi2, hj1, hget2, hget1]
      intro h
      injection h with hx hy
      exact hac hx.symm
    · -- i = e2, j old
      rw [hi2, hget2, hgetO j hj1 hj2]
      have hPc := hcons j hj
      intro h
      rw [← h] at hPc
      simp at hPc
      omega
    · -- i = e1, j = e2
      rw [hi1, hj2, hget1, hget2]
      intro h
      injection h with hx hy
      exact hac hx
    · -- i = e1, j old
      rw [hi1, hget1, hgetO j hj1 hj2]
      have hPc := hcons j hj
      intro h
      rw [← h] at hPc
      simp at hPc
      omega
    · -- i old, j = e2
      rw [hj2, hget2, hgetO i hi1 hi2]
      have hPc := hcons i hi
      intro h
      rw [h] at hPc
      simp at hPc
      omega
    · -- i old, j = e1
      rw [hj1, hget1, hgetO i hi1 hi2]
      have hPc := hcons i hi
      intro h
      rw [h] at hPc
      simp at hPc
      omega
    · -- both old
      rw [hgetO i hi1 hi2, hgetO j hj1 hj2]
      exact hdist i hi j hj hij
  · -- row sums
    intro p
    by_cases hpa : p = a
    · rw [hpa]
      exact rowDeg_two_change n a b d _ _ hbN hdN hbd hBab hMab hBad had
        (fun y hy hyb hyd => applyCrossRewire_untouched M a b c d a y
          (by omega) (by omega) (by omega) (by omega))
    by_cases hpc : p = c
    · rw [hpc]
      exact rowDeg_two_change n c d b _ _ hdN hbN (Ne.symm hbd) hBcd hMcd
        hBcb hcb
        (fun y hy hyd hyb => applyCrossRewire_untouched M a b c d c y
          (by omega) (by omega) (by omega) (by omega))
    · unfold rowDeg
      refine Finset.sum_congr rfl fun y _ => ?_
      exact applyCrossRewire_untouched M a b c d p y
        (by omega) (by omega) (by omega) (by omega)
  · -- column sums
    intro q
    by_cases hqb : q = b
    · rw [hqb]
      exact colSum_two_change m b a c _ _ haM hcM hac hBab hMab hBcb hcb
        (fun x hx hxa hxc => applyCrossRewire_untouched M a b c d x b
          (by omega) (by omega) (by omega) (by omega))
    by_cases hqd : q = d
    · rw [hqd]
      exact colSum_two_change m d c a _ _ hcM haM (Ne.symm hac) hBcd hMcd
        hBad had
        (fun x hx hxc hxa => applyCrossRewire_untouched M a b c d x d
          (by omega) (by omega) (by omega) (by omega))
    · unfold colSumUpTo
      refine Finset.sum_congr rfl fun x _ => ?_
      exact applyCrossRewire_untouched M a b c d x q
        (by omega) (by omega) (by omega) (by omega)

/-- One `crossStep` preserves the cross-matrix structure and the
link-list properties. -/
lemma crossStep_preserves (m n : ℕ) (st : CrossState) (draw : ℕ × ℕ)
    (h01 : crossA01 m n st.crossA) (hrange : linksInRange m n st.links)
    (hcons : linksConsistent st.crossA st.links)
    (hdist : linksDistinct st.links)
    (h1 : draw.1 < st.links.length) (h2 : draw.2 < st.links.length) :
    crossA01 m n (crossStep st draw).crossA ∧
    linksInRange m n (crossStep st draw).links ∧
    linksConsistent (crossStep st draw).crossA (crossStep st draw).links ∧
    linksDistinct (crossStep st draw).links ∧
    (crossStep st draw).links.length = st.links.length ∧
    (∀ p, rowDeg n (crossStep st draw).crossA p = rowDeg n st.crossA p) ∧
    (∀ q, colSumUpTo m (crossStep st draw).crossA q
      = colSumUpTo m st.crossA q) := by
  unfold crossStep
  by_cases hacc :
      st.crossA (st.links.getD draw.1 (0, 0)).1
        (st.links.getD draw.2 (0, 0)).2 = 0 ∧
      st.crossA (st.links.getD draw.2 (0, 0)).1
        (st.links.getD draw.1 (0, 0)).2 = 0
  · rw [if_pos hacc]
    exact crossRewire_state_preserves m n st.crossA st.links draw.1 draw.2
      (st.links.getD draw.1 (0, 0)).1 (st.links.getD draw.1 (0, 0)).2
      (st.links.getD draw.2 (0, 0)).1 (st.links.getD draw.2 (0, 0)).2
      h01 hrange hcons hdist h1 h2 Prod.mk.eta Prod.mk.eta hacc.1 hacc.2
  · rw [if_neg hacc]
    exact ⟨h01, hrange, hcons, hdist, rfl, fun p => rfl, fun q => rfl⟩

/-- A full `_randomlyRewireCrossLinks` swap loop preserves the
cross-matrix structure and the link-list properties. -/
lemma crossLinks_run_preserves (m n : ℕ) (draws : List (ℕ × ℕ)) :
    ∀ st : CrossState, crossA01 m n st.crossA →
      linksInRange m n st.links → linksConsistent st.crossA st.links →
      linksDistinct st.links → drawsValid st.links.length draws →
      crossA01 m n (randomlyRewireCrossLinks st draws).crossA ∧
      linksInRange m n (randomlyRewireCrossLinks st draws).links ∧
      linksConsistent (randomlyRewireCrossLinks st draws).crossA
        (randomlyRewireCrossLinks st draws).links ∧
      linksDistinct (randomlyRewireCrossLinks st draws).links ∧
      (randomlyRewireCrossLinks st draws).links.length = st.links.length ∧
      (∀ p, rowDeg n (randomlyRewireCrossLinks st draws).crossA p
        = rowDeg n st.crossA p) ∧
      (∀ q, colSumUpTo m (randomlyRewireCrossLinks st draws).crossA q
        = colSumUpTo m st.crossA q) := by
  induction draws with
  | nil =>
    intro st h1 h2 h3 h4 _
    exact ⟨h1, h2, h3, h4, rfl, fun p => rfl, fun q => rfl⟩
  | cons dr ds ih =>
    intro st h01 hrange hcons hdist hdraws
    have hd := hdraws dr (List.mem_cons_self dr ds)
    obtain ⟨hs1, hs2, hs3, hs4, hs5, hs6, hs7⟩ :=
      crossStep_preserves m n st dr h01 hrange hcons hdist hd.1 hd.2
    have hdraws2 : drawsValid (crossStep st dr).links.length ds := by
      intro e he
      rw [hs5]
      exact hdraws e (List.mem_cons_of_mem dr he)
    obtain ⟨hh1, hh2, hh3, hh4, hh5, hh6, hh7⟩ := ih (crossStep st dr)
      hs1 hs2 hs3 hs4 hdraws2
    exact ⟨hh1, hh2, hh3, hh4, hh5.trans hs5, fun p => (hh6 p).trans (hs6 p),
      fun q => (hh7 q).trans (hs7 q)⟩

/-- C10 (amended): if `cross_A` is 0/1, every `cross_links` entry names
a 1-entry inside the `m × n` matrix, and additionally no two entries
are equal, then any `_randomlyRewireCrossLinks` swap loop preserves the
total number of 1-entries, every row sum, every column sum, and keeps
every entry naming a 1-entry of `cross_A`. -/
theorem rewireCrossLinks_preserves_structure (m n : ℕ) (st : CrossState)
    (draws : List (ℕ × ℕ))
    (h01 : crossA01 m n st.crossA) (hrange : linksInRange m n st.links)
    (hcons : linksConsistent st.crossA st.links)
    (hdist : linksDistinct st.links)
    (hdraws : drawsValid st.links.length draws) :
    (∀ p, rowDeg n (randomlyRewireCrossLinks st draws).crossA p
      = rowDeg n st.crossA p) ∧
    (∀ q, colSumUpTo m (randomlyRewireCrossLinks st draws).crossA q
      = colSumUpTo m st.crossA q) ∧
    totalCross m n (randomlyRewireCrossLinks st draws).crossA
      = totalCross m n st.crossA ∧
    linksConsistent (randomlyRewireCrossLinks st draws).crossA
      (randomlyRewireCrossLinks st draws).links ∧
    linksDistinct (randomlyRewireCrossLinks st draws).links := by
  have h := crossLinks_run_preserves m n draws st h01 hrange hcons hdist hdraws
  refine ⟨h.2.2.2.2.2.1, h.2.2.2.2.2.2, ?_, h.2.2.1, h.2.2.2.1⟩
  unfold totalCross
  exact Finset.sum_congr rfl fun i _ => h.2.2.2.2.2.1 i

/-- Witness for the amended C10 at a concrete accepted swap: the 2×2
identity cross matrix with duplicate-free links `[(0,0), (1,1)]` and
one draw `(0, 1)` (which swaps to the anti-diagonal). -/
theorem rewireCrossLinks_preserves_structure_witness :
    (∀ p, rowDeg 2 (randomlyRewireCrossLinks
        { crossA := idCrossA, links := [(0, 0), (1, 1)] } [(0, 1)]).crossA p
      = rowDeg 2 idCrossA p) ∧
    (∀ q, colSumUpTo 2 (randomlyRewireCrossLinks
        { crossA := idCrossA, links := [(0, 0), (1, 1)] } [(0, 1)]).crossA q
      = colSumUpTo 2 idCrossA q) ∧
    totalCross 2 2 (randomlyRewireCrossLinks
        { crossA := idCrossA, links := [(0, 0), (1, 1)] } [(0, 1)]).crossA
      = totalCross 2 2 idCrossA ∧
    linksConsistent (randomlyRewireCrossLinks
        { crossA := idCrossA, links := [(0, 0), (1, 1)] } [(0, 1)]).crossA
      (randomlyRewireCrossLinks
        { crossA := idCrossA, links := [(0, 0), (1, 1)] } [(0, 1)]).links ∧
    linksDistinct (randomlyRewireCrossLinks
        { crossA := idCrossA, links := [(0, 0), (1, 1)] } [(0, 1)]).links :=
  rewireCrossLinks_preserves_structure 2 2
    { crossA := idCrossA, links := [(0, 0), (1, 1)] } [(0, 1)]
    (by decide) (by decide) (by decide) (by decide) (by decide)

/-- C10 counterexample: the link list of `dupCrossSt` names the link
`(0, 0)` twice (each entry names a 1-entry, as the claim assumes).
After the first accepted swap, consistency of the link list is already
broken; drawing the stale duplicate next makes an accepted swap that
raises the row sum of row 0 from 1 to 2. -/
theorem rewireCrossLinks_breaks_sums_with_duplicate_links :
    crossA01 2 2 dupCrossSt.crossA ∧
    linksInRange 2 2 dupCrossSt.links ∧
    linksConsistent dupCrossSt.crossA dupCrossSt.links ∧
    drawsValid dupCrossSt.links.length [(0, 2), (1, 1)] ∧
    ¬ linksConsistent (randomlyRewireCrossLinks dupCrossSt [(0, 2)]).crossA
      (randomlyRewireCrossLinks dupCrossSt [(0, 2)]).links ∧
    rowDeg 2 dupCrossSt.crossA 0 = 1 ∧
    rowDeg 2 (randomlyRewireCrossLinks dupCrossSt
      [(0, 2), (1, 1)]).crossA 0 = 2 := by
  refine ⟨by decide, by decide, by decide, by decide, by decide, by decide,
    by decide⟩

/-! ## C4: 4th-order local cliquishness -/

lemma getD_map_range (N i : ℕ) (f : ℕ → ℚ) (hi : i < N) :
    ((List.range N).map f).getD i 0 = f i := by
  rw [List.getD_eq_getElem _ _ (by simpa using hi), List.getElem_map,
    List.getElem_range]

/-- Evaluating a sum over positions of a list as a sum over its
mapped values. -/
lemma sum_range_length_map (l : List ℕ) (f : ℕ → ℕ) :
    ∑ j in range l.length, f (l.getD j 0) = (l.map f).sum := by
  induction l with
  | nil => simp
  | cons a l ih =>
    rw [List.length_cons, Finset.sum_range_succ']
    simp only [List.getD_cons_succ, List.getD_cons_zero]
    rw [ih, List.map_cons, List.sum_cons]
    omega

/-- For a duplicate-free list, a sum over positions is a sum over the
set of values. -/
lemma sum_range_getD_toFinset (l : List ℕ) (hl : l.Nodup) (f : ℕ → ℕ) :
    ∑ j in range l.length, f (l.getD j 0) = ∑ x in l.toFinset, f x := by
  rw [sum_range_length_map]
  exact (List.sum_toFinset f hl).symm

/-- The triple loop of `_local_cliquishness_4thorder`, run over the
true neighbor list, counts exactly the ordered triples of distinct
neighbors forming a triangle (zero diagonal makes the distinctness
conditions automatic). -/
lemma cliquishCounter_eq_tripleCount (N : ℕ) (A : ℕ → ℕ → ℕ) (i : ℕ)
    (hdiag : ∀ x < N, A x x = 0) :
    cliquishCounter A (neighborsList N A i) (neighborsList N A i).length
      = orderedTripleCliqueCount N A i := by
  set nb := neighborsList N A i with hnb
  have hnodup : nb.Nodup := by
    rw [hnb]
    exact (List.nodup_range N).filter _
  have hmemN : ∀ x ∈ nb.toFinset, x < N := by
    intro x hx
    rw [List.mem_toFinset, hnb, neighborsList] at hx
    exact List.mem_range.mp (List.mem_filter.mp hx).1
  have h1 : cliquishCounter A nb nb.length
      = ∑ j in range nb.length, ∑ k in range nb.length,
          ∑ l in range nb.length,
          if A (nb.getD j 0) (nb.getD k 0) = 1 ∧
             (A (nb.getD k 0) (nb.getD l 0) = 1 ∧
              A (nb.getD l 0) (nb.getD j 0) = 1) then 1 else 0 := by
    unfold cliquishCounter
    refine Finset.sum_congr rfl fun j _ => Finset.sum_congr rfl fun k _ => ?_
    rw [ite_guard_sum]
    exact Finset.sum_congr rfl fun l _ => ite_ite_and 1
  have hRHS : orderedTripleCliqueCount N A i
      = ∑ x in nb.toFinset, ∑ y in nb.toFinset, ∑ z in nb.toFinset,
          if x ≠ y ∧ y ≠ z ∧ x ≠ z ∧ A x y = 1 ∧ A y z = 1 ∧ A z x = 1
          then 1 else 0 := by
    unfold orderedTripleCliqueCount
    rw [← hnb, Finset.card_filter, Finset.sum_product]
    refine Finset.sum_congr rfl fun x _ => ?_
    rw [Finset.sum_product]
  rw [h1, hRHS]
  rw [sum_range_getD_toFinset nb hnodup
    (fun x => ∑ k in range nb.length, ∑ l in range nb.length,
      if A x (nb.getD k 0) = 1 ∧
         (A (nb.getD k 0) (nb.getD l 0) = 1 ∧ A (nb.getD l 0) x = 1)
      then 1 else 0)]
  refine Finset.sum_congr rfl fun x hx => ?_
  rw [sum_range_getD_toFinset nb hnodup
    (fun y => ∑ l in range nb.length,
      if A x y = 1 ∧ (A y (nb.getD l 0) = 1 ∧ A (nb.getD l 0) x = 1)
      then 1 else 0)]
  refine Finset.sum_congr rfl fun y hy => ?_
  rw [sum_range_getD_toFinset nb hnodup
    (fun z => if A x y = 1 ∧ (A y z = 1 ∧ A z x = 1) then 1 else 0)]
  refine Finset.sum_congr rfl fun z hz => ?_
  have hxN := hmemN x hx
  have hyN := hmemN y hy
  have hzN := hmemN z hz
  refine if_congr ⟨?_, ?_⟩ rfl rfl
  · rintro ⟨hxy, hyz, hzx⟩
    refine ⟨?_, ?_, ?_, hxy, hyz, hzx⟩
    · intro he
      rw [he, hdiag y hyN] at hxy
      omega
    · intro he
      rw [he, hdiag z hzN] at hyz
      omega
    · intro he
      rw [← he, hdiag x hxN] at hzx
      omega
  · rintro ⟨h1', h2', h3', h4', h5', h6'⟩
    exact ⟨h4', h5', h6'⟩

/-- C4: for a node `i` whose `degree[i]` equals its true neighbor
count, on a zero-diagonal matrix, `_local_cliquishness_4thorder`
returns the number of ordered triples of distinct neighbors with all
three connecting edges present, divided by
`degree_i * (degree_i - 1) * (degree_i - 2)` when `degree[i] >= 3`,
and 0 when `degree[i] < 3`. -/
theorem local_cliquishness_4thorder_spec (N : ℕ) (A : ℕ → ℕ → ℕ)
    (degree : ℕ → ℕ) (i : ℕ) (hiN : i < N)
    (hdeg : degree i = (neighborsList N A i).length)
    (hdiag : ∀ x < N, A x x = 0) :
    (3 ≤ degree i →
      (local_cliquishness_4thorder N A degree).getD i 0
        = (orderedTripleCliqueCount N A i : ℚ) /
          ((degree i : ℚ) * ((degree i : ℚ) - 1) * ((degree i : ℚ) - 2))) ∧
    (degree i < 3 →
      (local_cliquishness_4thorder N A degree).getD i 0 = 0) := by
  have hgetD : (local_cliquishness_4thorder N A degree).getD i 0
      = (if 3 ≤ degree i then
          (cliquishCounter A (neighborsList N A i) (degree i) : ℚ) /
            ((degree i : ℚ) * ((degree i : ℚ) - 1) * ((degree i : ℚ) - 2))
         else 0) := by
    unfold local_cliquishness_4thorder
    exact getD_map_range N i _ hiN
  constructor
  · intro h3
    rw [hgetD, if_pos h3, hdeg, cliquishCounter_eq_tripleCount N A i hdiag]
  · intro h3
    rw [hgetD, if_neg (by omega)]

/-- Witness for C4: on the complete graph of 5 nodes the kernel value
at node 0 is the triple-count formula and equals 1; on the 3-node star
`starA3`, node 0 has degree 2 and the value is 0. -/
theorem local_cliquishness_4thorder_spec_witness :
    (local_cliquishness_4thorder 5 K5A K5deg).getD 0 0
      = (orderedTripleCliqueCount 5 K5A 0 : ℚ) /
        ((K5deg 0 : ℚ) * ((K5deg 0 : ℚ) - 1) * ((K5deg 0 : ℚ) - 2)) ∧
    (local_cliquishness_4thorder 5 K5A K5deg).getD 0 0 = 1 ∧
    (local_cliquishness_4thorder 3 starA3 starDeg3).getD 0 0 = 0 := by
  have h1 := (local_cliquishness_4thorder_spec 5 K5A K5deg 0 (by decide)
    (by decide) (by decide)).1 (by decide)
  have h2 := (local_cliquishness_4thorder_spec 3 starA3 starDeg3 0 (by decide)
    (by decide) (by decide)).2 (by decide)
  refine ⟨h1, ?_, h2⟩
  rw [h1, show orderedTripleCliqueCount 5 K5A 0 = 24 from by decide,
    show K5deg 0 = 4 from rfl]
  norm_num

/-! ## C8: the partitioned Newman-betweenness kernel -/

lemma filter_range_lt (N s : ℕ) (hs : s ≤ N) :
    (range N).filter (fun t => t < s) = range s := by
  ext t
  simp only [Finset.mem_filter, Finset.mem_range]
  omega

lemma getD_map_range_q (N i : ℕ) (f : ℕ → ℚ) (hi : i < N) :
    ((List.range N).map f).getD i 0 = f i := by
  rw [List.getD_eq_getElem _ _ (by simpa using hi), List.getElem_map,
    List.getElem_range]

/-- C8: `_mpi_newman_betweenness` returns `start_i`, `end_i` and a
vector of length `end_i - start_i` whose entry for source `i` is the
sum over neighbors `j` (`this_A[i - start_i, j] == 1`) and over node
pairs `(s, t)` with `t < s`, `s ≠ i`, `t ≠ i` of
`|V[i,s] - V[j,s] - V[i,t] + V[j,t]|`. -/
theorem mpi_newman_betweenness_spec (thisA : ℕ → ℕ → ℕ) (V : ℕ → ℕ → ℚ)
    (N start_i end_i : ℕ)
    (h01 : ∀ r < end_i - start_i, ∀ j < N, thisA r j ≤ 1) :
    (mpi_newman_betweenness thisA V N start_i end_i).2 = (start_i, end_i) ∧
    (mpi_newman_betweenness thisA V N start_i end_i).1.length
      = end_i - start_i ∧
    ∀ r < end_i - start_i,
      (mpi_newman_betweenness thisA V N start_i end_i).1.getD r 0
        = ∑ j in (range N).filter (fun j => thisA r j = 1),
            ∑ p in (range N ×ˢ range N).filter
              (fun p => p.2 < p.1 ∧ p.1 ≠ r + start_i ∧ p.2 ≠ r + start_i),
              |V (r + start_i) p.1 - V j p.1 - V (r + start_i) p.2
                + V j p.2| := by
  refine ⟨rfl, by simp [mpi_newman_betweenness], ?_⟩
  intro r hr
  have hbody : (mpi_newman_betweenness thisA V N start_i end_i).1.getD r 0
      = ∑ j in range N,
          if thisA r j ≠ 0 then
            ∑ s in range N,
              if r + start_i ≠ s then
                ∑ t in range s,
                  if r + start_i ≠ t then
                    |V (r + start_i) s - V j s - V (r + start_i) t + V j t|
                  else 0
              else 0
          else 0 := by
    unfold mpi_newman_betweenness
    exact getD_map_range_q (end_i - start_i) r _ hr
  rw [hbody, Finset.sum_filter]
  refine Finset.sum_congr rfl fun j hj => ?_
  have h01j := h01 r hr j (Finset.mem_range.mp hj)
  rw [show (if thisA r j = 1 then
        (∑ p in (range N ×ˢ range N).filter
          (fun p => p.2 < p.1 ∧ p.1 ≠ r + start_i ∧ p.2 ≠ r + start_i),
          |V (r + start_i) p.1 - V j p.1 - V (r + start_i) p.2 + V j p.2|)
      else 0)
      = (if thisA r j ≠ 0 then
          (∑ p in (range N ×ˢ range N).filter
            (fun p => p.2 < p.1 ∧ p.1 ≠ r + start_i ∧ p.2 ≠ r + start_i),
            |V (r + start_i) p.1 - V j p.1 - V (r + start_i) p.2 + V j p.2|)
        else 0)
    from if_congr (by omega) rfl rfl]
  refine if_congr Iff.rfl ?_ rfl
  rw [Finset.sum_filter, Finset.sum_product]
  refine Finset.sum_congr rfl fun s hs => ?_
  have hsN : s ≤ N := le_of_lt (Finset.mem_range.mp hs)
  rw [ite_guard_sum]
  have hstep : ∀ t ∈ range s,
      (if r + start_i ≠ s then
        (if r + start_i ≠ t then
          |V (r + start_i) s - V j s - V (r + start_i) t + V j t| else 0)
       else 0)
        = (if r + start_i ≠ s ∧ r + start_i ≠ t then
            |V (r + start_i) s - V j s - V (r + start_i) t + V j t| else 0) :=
    fun t _ => ite_ite_and _
  rw [Finset.sum_congr rfl hstep, ← filter_range_lt N s hsN,
    Finset.sum_filter]
  refine Finset.sum_congr rfl fun t _ => ?_
  rw [ite_ite_and]
  refine if_congr ?_ rfl rfl
  constructor
  · rintro ⟨u1, u2, u3⟩
    exact ⟨u1, by omega, by omega⟩
  · rintro ⟨u1, u2, u3⟩
    exact ⟨u1, by omega, by omega⟩

/-- Witness for C8 at a concrete input (`N = 2`, row range `[0, 1)`,
one neighbor entry). -/
theorem mpi_newman_betweenness_spec_witness :
    (mpi_newman_betweenness mpiA mpiV 2 0 1).1.getD 0 0
      = ∑ j in (range 2).filter (fun j => mpiA 0 j = 1),
          ∑ p in (range 2 ×ˢ range 2).filter
            (fun p => p.2 < p.1 ∧ p.1 ≠ 0 + 0 ∧ p.2 ≠ 0 + 0),
            |mpiV (0 + 0) p.1 - mpiV j p.1 - mpiV (0 + 0) p.2 + mpiV j p.2| :=
  (mpi_newman_betweenness_spec mpiA mpiV 2 0 1 (by decide)).2.2 0 (by decide)

/-- Relaxing one neighbor `l` of the dequeued node `i` preserves the
mid-processing invariant. -/
theorem relaxNbr_midInv (N j : ℕ) (offsets flatNbrs k : ℕ → ℕ) (w : ℕ → ℚ)
    (i d0 : ℕ) (Q0 : List ℕ) (q0 : ℕ) (st : BFSState) (l : ℕ)
    (hreach : nbrReach offsets flatNbrs k j i)
    (hl : l ∈ nbrList offsets flatNbrs k i)
    (hM : MidInv N j offsets flatNbrs k i d0 Q0 q0 st) :
    MidInv N j offsets flatNbrs k i d0 Q0 q0 (relaxNbr w offsets i (d0 + 1) st l) := by
  obtain ⟨hnd, hpw, hrch, hout, hbnd, hdi, ⟨t, hqeq⟩, hqi⟩ := hM
  unfold relaxNbr
  by_cases h1 : d0 + 1 ≤ st.dist l
  · rw [if_pos h1]
    by_cases h2 : d0 + 1 < st.dist l
    · rw [if_pos h2]
      have hlq : l ∉ st.queue := fun hmem => absurd (hbnd l hmem) (by omega)
      have hil : i ≠ l := by
        intro he
        rw [← he, hdi] at h2
        omega
      refine ⟨?_, ?_, ?_, ?_, ?_, ?_, ?_, hqi⟩
      · show (st.queue ++ [l]).Nodup
        rw [List.nodup_append]
        exact ⟨hnd, List.nodup_singleton l, List.disjoint_singleton.mpr hlq⟩
      · show (st.queue ++ [l]).Pairwise (fun a b =>
          Function.update st.dist l (d0 + 1) a ≤ Function.update st.dist l (d0 + 1) b)
        rw [List.pairwise_append]
        refine ⟨?_, List.pairwise_singleton _ _, ?_⟩
        · refine List.Pairwise.imp_of_mem ?_ hpw
          intro a b ha hb hab
          have ha' : a ≠ l := fun he => hlq (he ▸ ha)
          have hb' : b ≠ l := fun he => hlq (he ▸ hb)
          rw [Function.update_noteq ha', Function.update_noteq hb']
          exact hab
        · intro a ha b hb
          rw [List.mem_singleton] at hb
          subst hb
          have ha' : a ≠ b := fun he => hlq (he ▸ ha)
          rw [Function.update_noteq ha', Function.update_same]
          exact hbnd a ha
      · intro x hx
        show nbrReach offsets flatNbrs k j x
        rw [List.mem_append, List.mem_singleton] at hx
        rcases hx with hx | hx
        · exact hrch x hx
        · subst hx
          exact Relation.ReflTransGen.tail hreach hl
      · intro x hx
        show Function.update st.dist l (d0 + 1) x = 2 * N
        rw [List.mem_append, List.mem_singleton] at hx
        push_neg at hx
        rw [Function.update_noteq hx.2]
        exact hout x hx.1
      · intro x hx
        show Function.update st.dist l (d0 + 1) x ≤ d0 + 1
        rw [List.mem_append, List.mem_singleton] at hx
        rcases hx with hx | hx
        · have hx' : x ≠ l := fun he => hlq (he ▸ hx)
          rw [Function.update_noteq hx']
          exact hbnd x hx
        · subst hx
          rw [Function.update_same]
      · show Function.update st.dist l (d0 + 1) i = d0
        rw [Function.update_noteq hil]
        exact hdi
      · exact ⟨t ++ [l], by rw [hqeq, List.append_assoc]⟩
    · rw [if_neg h2]
      exact ⟨hnd, hpw, hrch, hout, hbnd, hdi, ⟨t, hqeq⟩, hqi⟩
  · rw [if_neg h1]
    exact ⟨hnd, hpw, hrch, hout, hbnd, hdi, ⟨t, hqeq⟩, hqi⟩

/-- Folding the relaxation over any list of neighbors of `i` preserves
the mid-processing invariant. -/
theorem foldl_relaxNbr_midInv (N j : ℕ) (offsets flatNbrs k : ℕ → ℕ) (w : ℕ → ℚ)
    (i d0 : ℕ) (Q0 : List ℕ) (q0 : ℕ)
    (hreach : nbrReach offsets flatNbrs k j i) :
    ∀ (L : List ℕ) (st : BFSState), (∀ x ∈ L, x ∈ nbrList offsets flatNbrs k i) →
      MidInv N j offsets flatNbrs k i d0 Q0 q0 st →
      MidInv N j offsets flatNbrs k i d0 Q0 q0
        (L.foldl (relaxNbr w offsets i (d0 + 1)) st)
  | [], _, _, hM => hM
  | a :: L, st, hL, hM => by
    rw [List.foldl_cons]
    exact foldl_relaxNbr_midInv N j offsets flatNbrs k w i d0 Q0 q0 hreach L _
      (fun x hx => hL x (List.mem_cons_of_mem a hx))
      (relaxNbr_midInv N j offsets flatNbrs k w i d0 Q0 q0 st a hreach
        (hL a (List.mem_cons_self a L)) hM)

/-- Once all neighbors of the dequeued node are relaxed, advancing the
read position `qi` restores the global queue invariant. -/
theorem bfsStep_final_inv (N j : ℕ) (offsets flatNbrs k : ℕ → ℕ)
    (st st' : BFSState) (hqi : st.qi < st.queue.length)
    (hM : MidInv N j offsets flatNbrs k (st.queue.getD st.qi 0)
      (st.dist (st.queue.getD st.qi 0)) st.queue st.qi st') :
    BFSInv N j offsets flatNbrs k { st' with qi := st'.qi + 1 } := by
  obtain ⟨hnd, hpw, hrch, hout, hbnd, hdi, ⟨t, hqeq⟩, hqi'⟩ := hM
  refine ⟨hnd, hpw, hrch, hout, ?_⟩
  intro idx h1 h2
  have h1' : st'.qi + 1 ≤ idx := h1
  have h2' : idx < st'.queue.length := h2
  show st'.dist (st'.queue.getD idx 0) ≤ st'.dist (st'.queue.getD (st'.qi + 1) 0) + 1
  have hmem_idx : st'.queue.getD idx 0 ∈ st'.queue := by
    rw [List.getD_eq_getElem _ _ h2']
    exact List.getElem_mem _
  have hb1 := hbnd _ hmem_idx
  have hlen : st'.qi + 1 < st'.queue.length := lt_of_le_of_lt h1' h2'
  have hqlt : st'.qi < st'.queue.length := Nat.lt_of_succ_lt hlen
  have hp := List.pairwise_iff_get.mp hpw ⟨st'.qi, hqlt⟩ ⟨st'.qi + 1, hlen⟩
    (Nat.lt_succ_self _)
  have hfront : st'.queue.getD st'.qi 0 = st.queue.getD st.qi 0 := by
    rw [hqeq, hqi', List.getD_append st.queue t 0 st.qi hqi]
  have hp' : st.dist (st.queue.getD st.qi 0) ≤ st'.dist (st'.queue.getD (st'.qi + 1) 0) := by
    have hg : st'.dist (st'.queue.getD st'.qi 0) = st.dist (st.queue.getD st.qi 0) := by
      rw [hfront]
      exact hdi
    rw [← hg, List.getD_eq_getElem _ _ hqlt, List.getD_eq_getElem _ _ hlen]
    exact hp
  omega

/-- Processing one queue entry preserves the global queue invariant. -/
theorem bfsProcessNode_inv (N j : ℕ) (offsets flatNbrs k : ℕ → ℕ) (w : ℕ → ℚ)
    (st : BFSState) (hqi : st.qi < st.queue.length)
    (hInv : BFSInv N j offsets flatNbrs k st) :
    BFSInv N j offsets flatNbrs k (bfsProcessNode w offsets flatNbrs k st) := by
  obtain ⟨hnd0, hpw0, hrch0, hout0, hfive⟩ := hInv
  have himem : st.queue.getD st.qi 0 ∈ st.queue := by
    rw [List.getD_eq_getElem _ _ hqi]
    exact List.getElem_mem _
  have hbnd : ∀ x ∈ st.queue, st.dist x ≤ st.dist (st.queue.getD st.qi 0) + 1 := by
    intro x hx
    obtain ⟨idx, hidx, hxe⟩ := List.getElem_of_mem hx
    by_cases hc : st.qi ≤ idx
    · have h5 := hfive idx hc hidx
      rw [List.getD_eq_getElem _ _ hidx, hxe] at h5
      exact h5
    · push_neg at hc
      have hp := List.pairwise_iff_get.mp hpw0 ⟨idx, hidx⟩ ⟨st.qi, hqi⟩ hc
      have hp' : st.dist x ≤ st.dist (st.queue.getD st.qi 0) := by
        rw [List.getD_eq_getElem _ _ hqi, ← hxe]
        exact hp
      exact hp'.trans (Nat.le_succ _)
  have hM0 : MidInv N j offsets flatNbrs k (st.queue.getD st.qi 0)
      (st.dist (st.queue.getD st.qi 0)) st.queue st.qi st :=
    ⟨hnd0, hpw0, hrch0, hout0, hbnd, rfl, ⟨[], (List.append_nil _).symm⟩, rfl⟩
  have hM := foldl_relaxNbr_midInv N j offsets flatNbrs k w
    (st.queue.getD st.qi 0) (st.dist (st.queue.getD st.qi 0)) st.queue st.qi
    (hrch0 _ himem)
    (nbrList offsets flatNbrs k (st.queue.getD st.qi 0)) st (fun _ hx => hx) hM0
  exact bfsStep_final_inv N j offsets flatNbrs k st _ hqi hM

/-- Any number of iterations of the forward loop preserves the global
queue invariant. -/
theorem bfsForward_inv (N j : ℕ) (offsets flatNbrs k : ℕ → ℕ) (w : ℕ → ℚ) :
    ∀ (fuel : ℕ) (st : BFSState), BFSInv N j offsets flatNbrs k st →
      BFSInv N j offsets flatNbrs k (bfsForward w offsets flatNbrs k fuel st)
  | 0, _, h => h
  | fuel + 1, st, h => by
    rw [bfsForward]
    by_cases hg : st.qi < st.queue.length
    · rw [if_pos hg]
      exact bfsForward_inv N j offsets flatNbrs k w fuel _
        (bfsProcessNode_inv N j offsets flatNbrs k w st hg h)
    · rw [if_neg hg]
      exact h

/-- The initial forward-phase state satisfies the queue invariant. -/
theorem bfsInit_inv (N j : ℕ) (w : ℕ → ℚ) (offsets flatNbrs k : ℕ → ℕ) :
    BFSInv N j offsets flatNbrs k (bfsInit N w j) := by
  refine ⟨List.nodup_singleton j, List.pairwise_singleton _ _, ?_, ?_, ?_⟩
  · intro l hl
    have hl' : l ∈ [j] := hl
    rw [List.mem_singleton] at hl'
    subst hl'
    exact Relation.ReflTransGen.refl
  · intro l hl
    have hl' : l ∉ [j] := hl
    rw [List.mem_singleton] at hl'
    show Function.update (fun _ => 2 * N) j 0 l = 2 * N
    rw [Function.update_noteq hl']
  · intro idx h1 h2
    have h2' : idx < 1 := h2
    have hidx : idx = 0 := by omega
    subst hidx
    exact Nat.le_succ _

/-- C7: in the forward phase of `_nsi_betweenness`, the distances of
nodes in queue order are non-decreasing, each node is enqueued at most
once, and every node unreachable from the source `j` keeps the
sentinel distance `2 * N` and is never enqueued. -/
theorem nsi_betweenness_forward_phase (N j fuel : ℕ) (w : ℕ → ℚ)
    (offsets flatNbrs k : ℕ → ℕ) (st : BFSState)
    (hst : st = bfsForward w offsets flatNbrs k fuel (bfsInit N w j)) :
    st.queue.Pairwise (fun a b => st.dist a ≤ st.dist b) ∧
    st.queue.Nodup ∧
    ∀ l, ¬ nbrReach offsets flatNbrs k j l → st.dist l = 2 * N ∧ l ∉ st.queue := by
  subst hst
  obtain ⟨hnd, hpw, hrch, hout, _⟩ :=
    bfsForward_inv N j offsets flatNbrs k w fuel _ (bfsInit_inv N j w offsets flatNbrs k)
  refine ⟨hpw, hnd, fun l hnr => ?_⟩
  have hlq : l ∉ (bfsForward w offsets flatNbrs k fuel (bfsInit N w j)).queue :=
    fun hmem => hnr (hrch l hmem)
  exact ⟨hout l hlq, hlq⟩

/-- Witness for C7 on the concrete CSR graph with edge 0-1 and the
isolated node 2: after the run from source 0, the unreachable node 2
keeps the sentinel distance `2 * 3 = 6` and is not in the queue. -/
theorem nsi_betweenness_forward_phase_witness :
    (bfsForward (fun _ => 1) bfsOff bfsFn bfsK 5 (bfsInit 3 (fun _ => 1) 0)).dist 2 = 6 ∧
    2 ∉ (bfsForward (fun _ => 1) bfsOff bfsFn bfsK 5 (bfsInit 3 (fun _ => 1) 0)).queue := by
  have hset : ∀ x, nbrReach bfsOff bfsFn bfsK 0 x → x = 0 ∨ x = 1 := by
    intro x hx
    induction hx with
    | refl => exact Or.inl rfl
    | @tail b c hab hbc ih =>
      have hbc' : c ∈ nbrList bfsOff bfsFn bfsK b := hbc
      rcases ih with h | h
      · subst h
        rw [show nbrList bfsOff bfsFn bfsK 0 = [1] from by decide,
          List.mem_singleton] at hbc'
        exact Or.inr hbc'
      · subst h
        rw [show nbrList bfsOff bfsFn bfsK 1 = [0] from by decide,
          List.mem_singleton] at hbc'
        exact Or.inl hbc'
  have hnr : ¬ nbrReach bfsOff bfsFn bfsK 0 2 := by
    intro h
    rcases hset 2 h with h' | h' <;> omega
  have h := (nsi_betweenness_forward_phase 3 0 5 (fun _ => 1) bfsOff bfsFn bfsK
    (bfsForward (fun _ => 1) bfsOff bfsFn bfsK 5 (bfsInit 3 (fun _ => 1) 0)) rfl).2.2 2 hnr
  refine ⟨?_, h.2⟩
  rw [h.1]

end PyunicornNumerics
